import Mathlib

/-!
Shallow embedding of the vectorized backtesting engine
(`src/quant_research_starter/backtest/vectorized.py`, class `VectorizedBacktest`)
and of the drawdown computation of `src/quant_research_starter/metrics/risk.py`
(class `RiskMetrics`), together with theorems settling the frozen claims.

Modelling conventions:
* Machine floats are modelled by `ℚ`; identities stated "up to floating-point
  tolerance" in the documentation become exact rational identities.
* A pandas `NaN` cell is modelled by `none : Option ℚ`; arithmetic on a missing
  value yields a missing value, and `dropna` keeps the rows whose cells are all
  `some`.  `pct_change` is modelled with NaN propagation (no forward fill of
  the price inputs): a return cell is defined exactly when the current and the
  previous price cells are.
* A pandas `Timestamp` is modelled by `Date`: `ord` is the day ordinal (used
  for ordering and for `.days` differences), `year`/`month` mirror
  `Timestamp.year`/`.month` and `isoWeek` mirrors `Timestamp.isocalendar()[1]`.
  Concrete instances are expected to set these fields consistently; the
  well-formedness the data model guarantees (strictly ascending, unique trading
  dates) is the hypothesis `DatesSorted` below.
* The three `ValueError`s the Python raises are modelled as the three
  constructors of `BTError`, matching the taxonomy of the documentation
  (`AlignmentError` / `UnsupportedFrequencyError` / `UnknownSchemeError`);
  each carries the formatted message, with the quoting of the original
  f-string simplified.
* Division by zero in `ℚ` yields 0 where pandas would produce `inf`/`NaN`.
  The only places this matters are a zero price (excluded by the data model,
  which requires positive prices) and a zero previous portfolio value in
  `pct_change`, where pandas produces `NaN` (dropped); `pctSeries` drops that
  entry accordingly.
-/

namespace QRS

/-- A trading date: `ord` is the day ordinal, the calendar fields mirror
pandas `Timestamp.year`, `.month` and `.isocalendar()[1]`. -/
structure Date where
  ord : Int
  year : Int
  month : Int
  isoWeek : Int
deriving DecidableEq, Repr

/-- Default date used only for out-of-range list accesses that are
unreachable on the inputs the engine actually produces. -/
def dD : Date := ⟨0, 0, 0, 0⟩

/-- A time-indexed panel (pandas `DataFrame`): named asset columns and one row
of optional (possibly-NaN) values per date. -/
structure Frame where
  assets : List String
  rows : List (Date × List (Option ℚ))
deriving DecidableEq, Repr

/-- The date index of a frame. -/
def Frame.index (f : Frame) : List Date := f.rows.map Prod.fst

/-- The data-model well-formedness of a date index: strictly ascending
(hence unique) trading dates. -/
def DatesSorted (l : List Date) : Prop :=
  l.Pairwise (fun a b => a.ord < b.ord)

/-- Engine configuration: the constructor arguments of `VectorizedBacktest`
other than the two panels.  `minPositionSize` is stored but never read by the
algorithm, exactly as in the source. -/
structure Config where
  initialCapital : ℚ
  transactionCost : ℚ
  maxLeverage : ℚ
  minPositionSize : ℚ
  rebalanceFreq : String
deriving DecidableEq, Repr

/-- The error taxonomy: the three `ValueError`s of the source, carrying the
formatted message (quoting simplified). -/
inductive BTError where
  | alignment (msg : String)
  | unsupportedFrequency (msg : String)
  | unknownScheme (msg : String)
deriving DecidableEq, Repr

/-- The result bundle returned by `run()` (the dict of `_generate_results`);
`trades` (always the empty frame) and `cash` (always `None`) are omitted. -/
structure Bundle where
  portfolioValue : List (Date × ℚ)
  returns : List (Date × ℚ)
  positions : List (Date × List ℚ)
  initialCapital : ℚ
  finalValue : ℚ
  totalReturn : ℚ
deriving DecidableEq, Repr

/-! ### Generic series helpers

`rabs` / `rmax` / `rmin` are the absolute value, maximum and minimum on `ℚ`,
spelled with a decidable `if` so that concrete runs reduce inside the kernel;
they agree with the bundled `|·|` / `max` / `min` (see `rabs_eq_abs` etc.). -/

/-- Absolute value on `ℚ`. -/
def rabs (x : ℚ) : ℚ := if x < 0 then -x else x

/-- Maximum on `ℚ`. -/
def rmax (x y : ℚ) : ℚ := if x ≤ y then y else x

/-- Minimum on `ℚ`. -/
def rmin (x y : ℚ) : ℚ := if x ≤ y then x else y

/-- First value bound to date `d` in an association list (pandas `.loc[d]`
on a series). -/
def findVal : List (Date × ℚ) → Date → Option ℚ
  | [], _ => none
  | (d', v) :: rest, d => if d = d' then some v else findVal rest d

/-- Row of a frame at date `d` (pandas `.loc[d]` on a DataFrame); the default
all-`none` row is returned only for dates outside the index, which the engine
never looks up. -/
def findRow (f : Frame) (d : Date) : List (Option ℚ) :=
  go f.rows
where
  go : List (Date × List (Option ℚ)) → List (Option ℚ)
    | [] => f.assets.map fun _ => none
    | (d', r) :: rest => if d = d' then r else go rest

/-- Value of column `a` in a row laid out over columns `cols`
(pandas label lookup on a Series; `none` for a missing label or a NaN cell,
both of which end up as weight 0 downstream, matching reindex + fillna). -/
def lookupCol : List String → List (Option ℚ) → String → Option ℚ
  | [], _, _ => none
  | _, [], _ => none
  | c :: cs, v :: vs, a => if a = c then v else lookupCol cs vs a

/-- Date at position `i` of a series. -/
def nthDate (l : List (Date × ℚ)) (i : Nat) : Date := (l.getD i (dD, 0)).1

/-- Value at position `i` of a series. -/
def nthVal (l : List (Date × ℚ)) (i : Nat) : ℚ := (l.getD i (dD, 0)).2

/-- Value of the last entry of a series, `dflt` for the empty series
(pandas `.iloc[-1]`). -/
def lastVal (l : List (Date × ℚ)) (dflt : ℚ) : ℚ :=
  ((l.getLast?).map Prod.snd).getD dflt

/-- `series.pct_change().dropna()` for a NaN-free series: consecutive simple
returns.  A zero previous value gives a pandas `NaN` (0/0, since a zero
portfolio value can only be followed by a zero one), hence is dropped. -/
def pctSeries : List (Date × ℚ) → List (Date × ℚ)
  | (_, v0) :: (d1, v1) :: rest =>
      (if v0 = 0 then [] else [(d1, v1 / v0 - 1)]) ++ pctSeries ((d1, v1) :: rest)
  | _ => []

/-- `.reindex(idx).ffill()`: look each index date up in `vals`, carrying the
last seen value forward.  The initial carry `c` is only visible when leading
index dates are absent from `vals`, which never happens in the engine (the
first aligned date is always the anchor entry). -/
def reindexFfill : List Date → List (Date × ℚ) → ℚ → List (Date × ℚ)
  | [], _, _ => []
  | d :: ds, vals, c =>
      let c' := (findVal vals d).getD c
      (d, c') :: reindexFfill ds vals c'

/-- Cumulative product scaled by `c`: element `j` is `c * l[0] * ... * l[j]`
(`(1 + strat_ret).cumprod() * initial_capital`). -/
def cumprodFrom (c : ℚ) : List ℚ → List ℚ
  | [] => []
  | x :: xs => (c * x) :: cumprodFrom (c * x) xs

/-- Dot product of two weight/return rows (`(weights_prev * returns).sum(axis=1)`
for one row). -/
def dotRow (a b : List ℚ) : ℚ := (List.zipWith (· * ·) a b).sum

/-- Turnover of one day: half the L1 distance between the new and the previous
weight row (`(weights - weights_prev).abs().sum(axis=1) * 0.5`). -/
def halfL1 (a b : List ℚ) : ℚ := (List.zipWith (fun x y => rabs (x - y)) a b).sum / 2

/-! ### Weight calculation (`_calculate_weights`)

The per-scheme weight of an entry depends only on its value and on the
multiset of valid (non-NaN) entries of the cross-section, so each scheme is
modelled as a function `ℚ → ℚ` parameterised by the list `valid` of non-NaN
signals in row order.  Entries with equal signal values receive equal ranks
(pandas average ranking) and hence equal weights, so this is faithful to the
Series-based source. -/

/-- pandas `Series.rank()` (average method) of value `x` within `valid`. -/
def rankOf (valid : List ℚ) (x : ℚ) : ℚ :=
  (valid.countP (fun y => decide (y < x)) : ℚ) +
    ((valid.countP (fun y => decide (y = x)) : ℚ) + 1) / 2

/-- The list of ranks of a cross-section (`valid_signals.rank()`), in row
order. -/
def rankList (valid : List ℚ) : List ℚ := valid.map (rankOf valid)

/-- Floor of a non-negative rational as a natural number (numpy `floor` of the
interpolation position, which is always non-negative; kernel-computable,
unlike the bundled `Int.floor`). -/
def floorNat (q : ℚ) : Nat := q.num.toNat / q.den

/-- pandas `Series.quantile(q)` with the default linear interpolation:
position `q * (n - 1)` between the order statistics. -/
def quantileLinear (l : List ℚ) (q : ℚ) : ℚ :=
  let s := l.insertionSort (· ≤ ·)
  let n := l.length
  if n = 0 then 0
  else
    let h : ℚ := q * ((n : ℚ) - 1)
    let lo : Nat := floorNat h
    let hi : Nat := min (lo + 1) (n - 1)
    let vlo := s.getD lo 0
    let vhi := s.getD hi 0
    vlo + (h - (lo : ℚ)) * (vhi - vlo)

/-- Rank scheme, before normalization: +1 on the top decile, -1 on the bottom
decile.  The source assigns `1.0` where `rank >= long_threshold` first and
`-1.0` where `rank <= short_threshold` second, so the short assignment wins
where the two sets overlap; the `if`-order below reproduces that. -/
def rankBase (valid : List ℚ) (x : ℚ) : ℚ :=
  let r := rankOf valid x
  let shortThr := quantileLinear (rankList valid) (1 / 10)
  let longThr := quantileLinear (rankList valid) (9 / 10)
  if r ≤ shortThr then -1 else if longThr ≤ r then 1 else 0

/-- Number of entries of the cross-section on the long side after the two
assignments (`(weights > 0).sum()`). -/
def longCount (valid : List ℚ) : Nat := valid.countP (fun y => decide (rankBase valid y = 1))

/-- Number of entries on the short side (`(weights < 0).sum()`). -/
def shortCount (valid : List ℚ) : Nat := valid.countP (fun y => decide (rankBase valid y = -1))

/-- Rank scheme after equal-weight normalization of each side, before the
leverage constraint. -/
def rankNormalized (valid : List ℚ) (x : ℚ) : ℚ :=
  let b := rankBase valid x
  if b = 1 then 1 / (longCount valid : ℚ)
  else if b = -1 then -(1 / (shortCount valid : ℚ))
  else 0

/-- The leverage constraint shared shape: if the total absolute weight over the
cross-section exceeds the cap, scale all weights by `cap / total`. -/
def scaleIfAbove (cap : ℚ) (valid : List ℚ) (f : ℚ → ℚ) : ℚ → ℚ :=
  let tot := (valid.map fun y => rabs (f y)).sum
  if cap < tot then fun x => f x * (cap / tot) else f

/-- The full rank-scheme weight function. -/
def rankWeights (cap : ℚ) (valid : List ℚ) : ℚ → ℚ :=
  scaleIfAbove cap valid (rankNormalized valid)

/-- `Series.clip(-3, 3)`. -/
def zscoreClip (x : ℚ) : ℚ := rmax (-3) (rmin x 3)

/-- Z-score scheme: clipped raw signals, scaled to the leverage cap when the
total absolute weight is positive. -/
def zscoreWeights (cap : ℚ) (valid : List ℚ) : ℚ → ℚ :=
  let tot := (valid.map fun y => rabs (zscoreClip y)).sum
  if 0 < tot then fun x => zscoreClip x * (cap / tot) else zscoreClip

/-- Long/short scheme: equal weights on each side, no leverage scaling. -/
def longShortWeights (valid : List ℚ) (x : ℚ) : ℚ :=
  if 0 < x then 1 / (valid.countP (fun y => decide (0 < y)) : ℚ)
  else if x < 0 then -(1 / (valid.countP (fun y => decide (y < 0)) : ℚ))
  else 0

/-- Scheme dispatch of `_calculate_weights` (the part after the all-NaN early
return); an unknown scheme raises. -/
def calcWeightFun (scheme : String) (cap : ℚ) (valid : List ℚ) :
    Except BTError (ℚ → ℚ) :=
  if scheme = "rank" then .ok (rankWeights cap valid)
  else if scheme = "zscore" then .ok (zscoreWeights cap valid)
  else if scheme = "long_short" then .ok (longShortWeights valid)
  else .error (.unknownScheme ("Unknown weight scheme: " ++ scheme))

/-- One weight row over the price columns: the all-NaN cross-section returns
the zero row before the scheme is inspected; otherwise the scheme weight of
each price column's signal value, 0 for a NaN or absent signal (reindexing the
full-width weight Series to `prices.columns` and filling with 0). -/
def weightRow (passets sassets : List String) (sigRow : List (Option ℚ))
    (scheme : String) (cap : ℚ) : Except BTError (List ℚ) :=
  let valid := sigRow.filterMap id
  if valid = [] then .ok (passets.map fun _ => 0)
  else
    match calcWeightFun scheme cap valid with
    | .error e => .error e
    | .ok f =>
        .ok (passets.map fun a =>
          match lookupCol sassets sigRow a with
          | some x => f x
          | none => 0)

/-! ### Rebalancing, returns and the run loop -/

/-- `_should_rebalance`: the first date always rebalances, before the
frequency is inspected; afterwards the frequency decides, and an unsupported
frequency raises. -/
def shouldRebalance (freq : String) (prev : Option Date) (d : Date) :
    Except BTError Bool :=
  match prev with
  | none => .ok true
  | some p =>
      if freq = "D" then .ok true
      else if freq = "W" then
        .ok (decide (d.isoWeek ≠ p.isoWeek ∨ d.year ≠ p.year))
      else if freq = "M" then
        .ok (decide (d.month ≠ p.month ∨ d.year ≠ p.year))
      else
        .error (.unsupportedFrequency
          ("Unsupported rebalance frequency: " ++ freq ++
            ". Supported frequencies: D (daily), W (weekly), M (monthly)"))

/-- One step of `prices.pct_change()` with NaN propagation: the return cell is
defined exactly when the previous and current prices are. -/
def pctRow (prev cur : List (Option ℚ)) : List (Option ℚ) :=
  List.zipWith (fun p c => p.bind fun a => c.map fun b => (b - a) / a) prev cur

/-- `prices.pct_change().dropna()`: consecutive per-asset returns, keeping only
the dates whose return cells are all defined. -/
def pctDropna : List (Date × List (Option ℚ)) → List (Date × List ℚ)
  | (_, r0) :: (d1, r1) :: rest =>
      let pr := pctRow r0 r1
      (if pr.all Option.isSome then [(d1, pr.filterMap id)] else []) ++
        pctDropna ((d1, r1) :: rest)
  | _ => []

/-- The weight-assembly loop of `run()`: walk the simulated dates, rebalancing
when `_should_rebalance` says so and carrying the current weights forward
otherwise.  `prev` is the last rebalance date, `cur` the current weight row
over the price columns (initially all zero). -/
def weightsLoop (sig : Frame) (passets : List String) (scheme freq : String)
    (cap : ℚ) : Option Date → List ℚ → List Date →
    Except BTError (List (Date × List ℚ))
  | _, _, [] => .ok []
  | prev, cur, d :: ds =>
      match shouldRebalance freq prev d with
      | .error e => .error e
      | .ok true =>
          match weightRow passets sig.assets (findRow sig d) scheme cap with
          | .error e => .error e
          | .ok w =>
              match weightsLoop sig passets scheme freq cap (some d) w ds with
              | .error e => .error e
              | .ok out => .ok ((d, w) :: out)
      | .ok false =>
          match weightsLoop sig passets scheme freq cap prev cur ds with
          | .error e => .error e
          | .ok out => .ok ((d, cur) :: out)

/-- Strategy returns: walk the weight rows and return rows in step, carrying
the previous weight row (`weights.shift(1).fillna(0.0)`, so the day-0 previous
row is all zero), producing
`sum(weights_prev * returns) - turnover * transaction_cost` per day. -/
def stratGo (tc : ℚ) : List ℚ → List (List ℚ) → List (List ℚ) → List ℚ
  | prev, w :: ws, r :: rs =>
      (dotRow prev r - halfL1 w prev * tc) :: stratGo tc w ws rs
  | _, _, _ => []

/-- The aligned engine: both panels restricted to the common dates, plus the
configuration. -/
structure Backtest where
  prices : Frame
  signals : Frame
  cfg : Config
deriving DecidableEq, Repr

/-- `Index.intersection` of two date indices (both ascending in the data
model, so the intersection in calling-index order is the sorted one pandas
returns). -/
def alignDates (p s : List Date) : List Date := p.filter (fun d => d ∈ s)

/-- `.loc[common_dates]`: restrict a frame to the given dates, in their
order. -/
def restrictFrame (f : Frame) (ds : List Date) : Frame :=
  { assets := f.assets, rows := ds.map fun d => (d, findRow f d) }

/-- Construction (`__init__` + `_align_data`): fails iff the two date indices
have empty intersection, otherwise stores both panels restricted to the
intersection.  No other argument is validated here. -/
def mkBacktest (p s : Frame) (cfg : Config) : Except BTError Backtest :=
  let common := alignDates p.index s.index
  if common = [] then
    .error (.alignment "No common dates between prices and signals")
  else
    .ok ⟨restrictFrame p common, restrictFrame s common, cfg⟩

/-- The zero weight row over the price columns
(`pd.Series(0.0, index=self.prices.columns)`). -/
def zeroRow (bt : Backtest) : List ℚ := bt.prices.assets.map fun _ => (0 : ℚ)

/-- The strategy-return series of `run()` for a given weights matrix:
`(weights_prev * returns).sum(axis=1) - turnover * transaction_cost`. -/
def stratOf (bt : Backtest) (wrows : List (Date × List ℚ)) : List ℚ :=
  stratGo bt.cfg.transactionCost (zeroRow bt) (wrows.map Prod.snd)
    ((pctDropna bt.prices.rows).map Prod.snd)

/-- The anchored portfolio-value series before reindexing: the initial
capital at the first aligned date, then the compounded values on the
simulated dates. -/
def anchoredOf (bt : Backtest) (wrows : List (Date × List ℚ)) : List (Date × ℚ) :=
  (bt.prices.index.headD dD, bt.cfg.initialCapital) ::
    ((pctDropna bt.prices.rows).map Prod.fst).zip
      (cumprodFrom bt.cfg.initialCapital ((stratOf bt wrows).map (1 + ·)))

/-- The full portfolio-value series: the anchored series reindexed to the
aligned dates and forward-filled. -/
def pvOf (bt : Backtest) (wrows : List (Date × List ℚ)) : List (Date × ℚ) :=
  reindexFfill bt.prices.index (anchoredOf bt wrows) 0

/-- `run(weight_scheme)`: returns-based simulation with configurable
rebalancing, producing the result bundle. -/
def run (bt : Backtest) (scheme : String) : Except BTError Bundle :=
  match weightsLoop bt.signals bt.prices.assets scheme bt.cfg.rebalanceFreq
      bt.cfg.maxLeverage none (zeroRow bt)
      ((pctDropna bt.prices.rows).map Prod.fst) with
  | .error e => .error e
  | .ok wrows =>
      .ok { portfolioValue := pvOf bt wrows
            returns := pctSeries (pvOf bt wrows)
            positions := wrows
            initialCapital := bt.cfg.initialCapital
            finalValue := lastVal (pvOf bt wrows) 0
            totalReturn := lastVal (pvOf bt wrows) 0 / bt.cfg.initialCapital - 1 }

/-! ### Risk metrics: `_calculate_drawdown` -/

/-- Expanding maximum (`Series.expanding().max()`). -/
def expandingMax : List ℚ → List ℚ
  | [] => []
  | x :: xs => go x xs
where
  go (m : ℚ) : List ℚ → List ℚ
    | [] => [m]
    | y :: ys => m :: go (rmax m y) ys

/-- `RiskMetrics._calculate_drawdown`: maximum drawdown of the compounded
return series and the duration, in days, from the last date (not after the
trough) at which the running maximum equals its maximum over that prefix, to
the trough (the first date attaining the maximum drawdown).  The NaN guards of
the source are unreachable in the rational model. -/
def calculateDrawdown (rets : List (Date × ℚ)) : ℚ × Int :=
  match rets with
  | [] => (0, 0)
  | _ =>
      let dates := rets.map Prod.fst
      let cum := cumprodFrom 1 (rets.map fun e => 1 + e.2)
      let runMax := expandingMax cum
      let dd := List.zipWith (fun c m => c / m - 1) cum runMax
      let maxdd := dd.foldl rmin (dd.headD 0)
      let trough := (((dates.zip dd).filter fun e => e.2 = maxdd).headD (dD, 0)).1
      let prior := (dates.zip runMax).filter fun e => e.1.ord ≤ trough.ord
      let startVal := (prior.map Prod.snd).foldl rmax ((prior.map Prod.snd).headD 0)
      let candidates := prior.filter fun e => e.2 = startVal
      let start := ((candidates.getLast?).map Prod.fst).getD (dates.headD dD)
      (maxdd, trough.ord - start.ord)

/-! ### Proof devices and concrete instances

`ffillMerge` is a merge-style reformulation of `reindexFfill` used only in
proofs (the two agree when the value dates form a sublist of a duplicate-free
index).  The `ex...` definitions are small concrete panels and configurations
used by witnesses and counterexamples. -/

/-- Merge formulation of reindex-and-forward-fill: consume the value list in
step with the index. -/
def ffillMerge : List Date → List (Date × ℚ) → ℚ → List (Date × ℚ)
  | [], _, _ => []
  | d :: ds, [], c => (d, c) :: ffillMerge ds [] c
  | d :: ds, (dv, v) :: vs, c =>
      if d = dv then (d, v) :: ffillMerge ds vs v
      else (d, c) :: ffillMerge ds ((dv, v) :: vs) c

/-- Day 0 of the concrete panels. -/
def exDate0 : Date := ⟨0, 2020, 1, 1⟩

/-- Day 1 of the concrete panels. -/
def exDate1 : Date := ⟨1, 2020, 1, 1⟩

/-- Day 2 of the concrete panels. -/
def exDate2 : Date := ⟨2, 2020, 1, 1⟩

/-- Day 3 of the concrete panels. -/
def exDate3 : Date := ⟨3, 2020, 1, 1⟩

/-- Flat three-asset price panel over two days. -/
def exPrices : Frame :=
  ⟨["A", "B", "C"],
    [(exDate0, [some 10, some 10, some 10]), (exDate1, [some 10, some 10, some 10])]⟩

/-- Signals with two positive entries and one negative one. -/
def exSignals : Frame :=
  ⟨["A", "B", "C"],
    [(exDate0, [some 1, some 1, some (-1)]), (exDate1, [some 1, some 1, some (-1)])]⟩

/-- Default-style configuration: capital 1e6, 10 bps cost, cap 1, daily. -/
def exCfg : Config := ⟨1000000, 1 / 1000, 1, 1 / 1000, "D"⟩

/-- The default-style configuration with an unsupported rebalance frequency. -/
def exCfgX : Config := ⟨1000000, 1 / 1000, 1, 1 / 1000, "X"⟩

/-- One-asset price panel over three days. -/
def exPrices1 : Frame :=
  ⟨["A"], [(exDate0, [some 100]), (exDate1, [some 101]), (exDate2, [some 99])]⟩

/-- One-asset signal panel over three days. -/
def exSignals1 : Frame :=
  ⟨["A"], [(exDate0, [some 1]), (exDate1, [some 2]), (exDate2, [some 3])]⟩

/-- One-asset, one-day price panel (no simulated dates after `pct_change`). -/
def exPricesOneDate : Frame := ⟨["A"], [(exDate0, [some 10])]⟩

/-- One-asset, one-day signal panel. -/
def exSignalsOneDate : Frame := ⟨["A"], [(exDate0, [some 1])]⟩

/-- Two-asset price panel in which the asset held from the previous day
crashes by 99.6 percent on each of days 2 and 3. -/
def exPricesCost : Frame :=
  ⟨["A", "B"],
    [(exDate0, [some 1000, some 1000]),
      (exDate1, [some 1000, some 1000]),
      (exDate2, [some 4, some 1000]),
      (exDate3, [some 4, some 4])]⟩

/-- Signals moving the whole portfolio from A to B and back each day. -/
def exSignalsCost : Frame :=
  ⟨["A", "B"],
    [(exDate0, [some 1, some 0]),
      (exDate1, [some 1, some 0]),
      (exDate2, [some 0, some 1]),
      (exDate3, [some 1, some 0])]⟩

/-- The cost-scenario configuration with a 1 percent transaction cost. -/
def exCfgTC : Config := ⟨1000000, 1 / 100, 1, 1 / 1000, "D"⟩

/-- The cost-scenario configuration with zero transaction cost. -/
def exCfgTC0 : Config := ⟨1000000, 0, 1, 1 / 1000, "D"⟩

/-- Two-asset price panel in which the portfolio value hits exactly zero on
day 2 (the held asset loses 99.8 percent while turnover costs 0.2 percent)
and asset A's day-3 price is missing. -/
def exPricesNaN : Frame :=
  ⟨["A", "B"],
    [(exDate0, [some 1000, some 1000]),
      (exDate1, [some 1000, some 1000]),
      (exDate2, [some 2, some 1000]),
      (exDate3, [none, some 1000])]⟩

/-- Signals moving the whole portfolio from A to B on day 2. -/
def exSignalsNaN : Frame :=
  ⟨["A", "B"],
    [(exDate0, [some 1, some 0]),
      (exDate1, [some 1, some 0]),
      (exDate2, [some 0, some 1]),
      (exDate3, [some 0, some 1])]⟩

/-- The zero-portfolio-value scenario configuration: 20 bps cost. -/
def exCfgNaN : Config := ⟨1000000, 1 / 500, 1, 1 / 1000, "D"⟩

/-- The engine built from `exPrices`/`exSignals`/`exCfg` (alignment is the
identity there). -/
def exBT : Backtest := ⟨exPrices, exSignals, exCfg⟩

/-- The bundle `run exBT "long_short"` produces. -/
def exBundleLS : Bundle :=
  { portfolioValue := [(exDate0, 1000000), (exDate1, 999000)]
    returns := [(exDate1, -1 / 1000)]
    positions := [(exDate1, [1 / 2, 1 / 2, -1])]
    initialCapital := 1000000
    finalValue := 999000
    totalReturn := -1 / 1000 }

/-- One-asset price panel with a missing (NaN) price on day 2. -/
def exPricesMid : Frame :=
  ⟨["A"], [(exDate0, [some 10]), (exDate1, [some 10]), (exDate2, [none]),
    (exDate3, [some 10])]⟩

/-- One-asset all-present signal panel over four days. -/
def exSignalsMid : Frame :=
  ⟨["A"], [(exDate0, [some 1]), (exDate1, [some 1]), (exDate2, [some 1]),
    (exDate3, [some 1])]⟩

/-- The engine for the mid-NaN scenario. -/
def exBTMid : Backtest := ⟨exPricesMid, exSignalsMid, exCfg⟩

/-- The bundle `run exBTMid "long_short"` produces: days 2 and 3 are removed
from simulation (the missing price kills both adjacent returns) and carry the
day-1 value forward with bundle return exactly 0. -/
def exBundleMid : Bundle :=
  { portfolioValue := [(exDate0, 1000000), (exDate1, 999500), (exDate2, 999500),
      (exDate3, 999500)]
    returns := [(exDate1, -1 / 2000), (exDate2, 0), (exDate3, 0)]
    positions := [(exDate1, [1])]
    initialCapital := 1000000
    finalValue := 999500
    totalReturn := -1 / 2000 }

/-- The engine for the zero-portfolio-value scenario. -/
def exBTNaN : Backtest := ⟨exPricesNaN, exSignalsNaN, exCfgNaN⟩

/-- The bundle `run exBTNaN "long_short"` produces: the portfolio value hits
exactly 0 on day 2, and the removed day 3 has no bundle return entry at all
(pandas 0/0 is NaN and is dropped). -/
def exBundleNaN : Bundle :=
  { portfolioValue := [(exDate0, 1000000), (exDate1, 999000), (exDate2, 0),
      (exDate3, 0)]
    returns := [(exDate1, -1 / 1000), (exDate2, -1)]
    positions := [(exDate1, [1, 0]), (exDate2, [0, 1])]
    initialCapital := 1000000
    finalValue := 0
    totalReturn := -1 }

/-- The single-asset engine (alignment is the identity there). -/
def exBT1 : Backtest := ⟨exPrices1, exSignals1, exCfg⟩

/-- The engine with the unsupported rebalance frequency and one simulated
date. -/
def exBTX : Backtest := ⟨exPrices, exSignals, exCfgX⟩

/-- The one-date engine (no simulated dates at all). -/
def exBTOneDate : Backtest := ⟨exPricesOneDate, exSignalsOneDate, exCfg⟩

/-- The crash-scenario engine with the 1 percent transaction cost. -/
def exBTCost : Backtest := ⟨exPricesCost, exSignalsCost, exCfgTC⟩

/-- The crash-scenario engine with zero transaction cost. -/
def exBTCost0 : Backtest := ⟨exPricesCost, exSignalsCost, exCfgTC0⟩

/-- The flat-price engine with the 1 percent transaction cost. -/
def exBTTC : Backtest := ⟨exPrices, exSignals, exCfgTC⟩

/-- The flat-price engine with zero transaction cost. -/
def exBTTC0 : Backtest := ⟨exPrices, exSignals, exCfgTC0⟩

/-- The bundle `run exBTTC "long_short"` produces (one turnover of 1 at a 1
percent cost on flat prices). -/
def exBundleTC : Bundle :=
  { portfolioValue := [(exDate0, 1000000), (exDate1, 990000)]
    returns := [(exDate1, -1 / 100)]
    positions := [(exDate1, [1 / 2, 1 / 2, -1])]
    initialCapital := 1000000
    finalValue := 990000
    totalReturn := -1 / 100 }

/-- The bundle `run exBTTC0 "long_short"` produces (flat prices, no cost). -/
def exBundleTC0 : Bundle :=
  { portfolioValue := [(exDate0, 1000000), (exDate1, 1000000)]
    returns := [(exDate1, 0)]
    positions := [(exDate1, [1 / 2, 1 / 2, -1])]
    initialCapital := 1000000
    finalValue := 1000000
    totalReturn := 0 }

/-- One-asset flat price panel over three days (two simulated dates). -/
def exPricesNaN1 : Frame :=
  ⟨["A"], [(exDate0, [some 10]), (exDate1, [some 10]), (exDate2, [some 10])]⟩

/-- One-asset signal panel whose first simulated date's cross-section is
all-NaN while the second one's is not. -/
def exSignalsNaN1 : Frame :=
  ⟨["A"], [(exDate0, [some 1]), (exDate1, [none]), (exDate2, [some 1])]⟩

/-- The engine whose first simulated signal cross-section is all-NaN. -/
def exBTNaN1 : Backtest := ⟨exPricesNaN1, exSignalsNaN1, exCfg⟩

/-- The bundle `run exBT1 "rank"` produces (the single asset is fully short
on both simulated dates). -/
def exBundleRank1 : Bundle :=
  { portfolioValue := [(exDate0, 1000000), (exDate1, 999500),
      (exDate2, 102948500 / 101)]
    returns := [(exDate1, -1 / 2000), (exDate2, 2 / 101)]
    positions := [(exDate1, [-1]), (exDate2, [-1])]
    initialCapital := 1000000
    finalValue := 102948500 / 101
    totalReturn := 3897 / 202000 }

/-- `DatesSorted` is decidable (used to discharge hypotheses on concrete
panels). -/
instance decDatesSorted (l : List Date) : Decidable (DatesSorted l) :=
  inferInstanceAs (Decidable (l.Pairwise fun a b : Date => a.ord < b.ord))

/-- Decidable equality of `Except` results (used to evaluate concrete runs). -/
instance decEqExcept {ε α : Type} [DecidableEq ε] [DecidableEq α] :
    DecidableEq (Except ε α) := fun a b =>
  match a, b with
  | .error e1, .error e2 =>
      if h : e1 = e2 then isTrue (by rw [h])
      else isFalse fun hc => h (by injection hc)
  | .ok v1, .ok v2 =>
      if h : v1 = v2 then isTrue (by rw [h])
      else isFalse fun hc => h (by injection hc)
  | .error _, .ok _ => isFalse fun hc => Except.noConfusion hc
  | .ok _, .error _ => isFalse fun hc => Except.noConfusion hc

/-! ### Basic lemmas: `rabs`, sums, `floorNat`, `quantileLinear` -/

theorem rabs_eq_abs (x : ℚ) : rabs x = |x| := by
  unfold rabs
  rcases lt_or_le x 0 with h | h
  · rw [if_pos h, abs_of_neg h]
  · rw [if_neg (not_lt.mpr h), abs_of_nonneg h]

theorem rabs_nonneg (x : ℚ) : 0 ≤ rabs x := by
  rw [rabs_eq_abs]; exact abs_nonneg x

theorem rabs_mul (x y : ℚ) : rabs (x * y) = rabs x * rabs y := by
  simp [rabs_eq_abs, abs_mul]

theorem rabs_of_nonneg {x : ℚ} (h : 0 ≤ x) : rabs x = x := by
  rw [rabs_eq_abs, abs_of_nonneg h]

theorem rmax_eq_max (x y : ℚ) : rmax x y = max x y := by
  unfold rmax
  rcases le_total x y with h | h
  · rw [if_pos h, max_eq_right h]
  · rcases eq_or_lt_of_le h with rfl | h'
    · simp
    · rw [if_neg (not_le.mpr h'), max_eq_left h]

theorem rmin_eq_min (x y : ℚ) : rmin x y = min x y := by
  unfold rmin
  rcases le_total x y with h | h
  · rw [if_pos h, min_eq_left h]
  · rcases eq_or_lt_of_le h with rfl | h'
    · simp
    · rw [if_neg (not_le.mpr h'), min_eq_right h]

/-- Sum of an indicator-style map: the count of hits times the constant. -/
theorem sum_map_ite (l : List ℚ) (p : ℚ → Bool) (c : ℚ) :
    (l.map fun y => if p y then c else 0).sum = (l.countP p : ℚ) * c := by
  induction l with
  | nil => simp
  | cons x xs ih =>
      simp only [List.map_cons, List.sum_cons, List.countP_cons, ih]
      by_cases h : p x = true <;> simp [h] <;> push_cast <;> ring

/-- A sum of non-negative terms is non-negative (specialised form). -/
theorem sum_map_nonneg {α : Type} (l : List α) (f : α → ℚ) (h : ∀ x ∈ l, 0 ≤ f x) :
    0 ≤ (l.map f).sum := by
  induction l with
  | nil => simp
  | cons x xs ih =>
      simp only [List.map_cons, List.sum_cons]
      have h1 := h x (List.mem_cons_self x xs)
      have h2 := ih fun y hy => h y (List.mem_cons_of_mem x hy)
      linarith

/-- Every nonempty list of rationals has a maximal element. -/
theorem exists_max_elem (l : List ℚ) (h : l ≠ []) : ∃ x ∈ l, ∀ y ∈ l, y ≤ x := by
  induction l with
  | nil => exact absurd rfl h
  | cons a xs ih =>
      rcases eq_or_ne xs [] with rfl | hne
      · exact ⟨a, List.mem_cons_self a [], by simp⟩
      · obtain ⟨x, hx, hxall⟩ := ih hne
        rcases le_total a x with hax | hxa
        · refine ⟨x, List.mem_cons_of_mem a hx, ?_⟩
          intro y hy
          rcases List.mem_cons.mp hy with rfl | hy'
          · exact hax
          · exact hxall y hy'
        · refine ⟨a, List.mem_cons_self a xs, ?_⟩
          intro y hy
          rcases List.mem_cons.mp hy with rfl | hy'
          · exact le_refl y
          · exact le_trans (hxall y hy') hxa

/-- Every nonempty list of rationals has a minimal element. -/
theorem exists_min_elem (l : List ℚ) (h : l ≠ []) : ∃ x ∈ l, ∀ y ∈ l, x ≤ y := by
  induction l with
  | nil => exact absurd rfl h
  | cons a xs ih =>
      rcases eq_or_ne xs [] with rfl | hne
      · exact ⟨a, List.mem_cons_self a [], by simp⟩
      · obtain ⟨x, hx, hxall⟩ := ih hne
        rcases le_total x a with hax | hxa
        · refine ⟨x, List.mem_cons_of_mem a hx, ?_⟩
          intro y hy
          rcases List.mem_cons.mp hy with rfl | hy'
          · exact hax
          · exact hxall y hy'
        · refine ⟨a, List.mem_cons_self a xs, ?_⟩
          intro y hy
          rcases List.mem_cons.mp hy with rfl | hy'
          · exact le_refl y
          · exact le_trans hxa (hxall y hy')

/-- For non-negative `q`, `q.num.toNat` is `q` scaled by its denominator. -/
theorem toNat_num_eq {q : ℚ} (hq : 0 ≤ q) : (q.num.toNat : ℚ) = q * (q.den : ℚ) := by
  have hden : ((q.den : ℚ)) ≠ 0 := by
    have : (0 : ℚ) < (q.den : ℚ) := by exact_mod_cast q.pos
    exact ne_of_gt this
  have h2 : (q.num : ℚ) = q * (q.den : ℚ) :=
    (div_eq_iff hden).mp (Rat.num_div_den q)
  have h1 : ((q.num.toNat : ℤ) : ℚ) = (q.num : ℚ) := by
    rw [Int.toNat_of_nonneg (Rat.num_nonneg.mpr hq)]
  rw [← h2, ← h1]
  norm_cast

theorem floorNat_le {q : ℚ} (hq : 0 ≤ q) : (floorNat q : ℚ) ≤ q := by
  unfold floorNat
  have hden : (0 : ℚ) < (q.den : ℚ) := by exact_mod_cast q.pos
  have hmul : (q.num.toNat / q.den) * q.den ≤ q.num.toNat := Nat.div_mul_le_self _ _
  have hcast : ((q.num.toNat / q.den : ℕ) : ℚ) * (q.den : ℚ) ≤ (q.num.toNat : ℚ) := by
    exact_mod_cast hmul
  rw [toNat_num_eq hq] at hcast
  exact le_of_mul_le_mul_right hcast hden

theorem lt_floorNat_add_one {q : ℚ} (hq : 0 ≤ q) : q < (floorNat q : ℚ) + 1 := by
  unfold floorNat
  have hden : (0 : ℚ) < (q.den : ℚ) := by exact_mod_cast q.pos
  have hlt : q.num.toNat < (q.num.toNat / q.den + 1) * q.den := by
    have h2 := Nat.mod_lt q.num.toNat q.pos
    calc q.num.toNat = q.den * (q.num.toNat / q.den) + q.num.toNat % q.den :=
            (Nat.div_add_mod _ _).symm
      _ < q.den * (q.num.toNat / q.den) + q.den := Nat.add_lt_add_left h2 _
      _ = (q.num.toNat / q.den + 1) * q.den := by ring
  have hcast : (q.num.toNat : ℚ) < ((q.num.toNat / q.den : ℕ) : ℚ) * (q.den : ℚ) + (q.den : ℚ) := by
    have := (Nat.cast_lt (α := ℚ)).mpr hlt
    push_cast at this
    linarith
  rw [toNat_num_eq hq] at hcast
  nlinarith [hcast, hden]

theorem getD_eq_getElem {α : Type} (l : List α) (d : α) {n : Nat} (h : n < l.length) :
    l.getD n d = l[n] := by
  rw [List.getD_eq_getElem?_getD, List.getElem?_eq_getElem h]
  rfl

theorem getD_mem {α : Type} (l : List α) (d : α) {n : Nat} (h : n < l.length) :
    l.getD n d ∈ l := by
  rw [getD_eq_getElem l d h]
  exact List.getElem_mem h

/-- Entries of the insertion sort are monotone in the position. -/
theorem insertionSort_getD_mono (l : List ℚ) {i j : Nat} (hij : i ≤ j)
    (hj : j < (l.insertionSort (· ≤ ·)).length) :
    (l.insertionSort (· ≤ ·)).getD i 0 ≤ (l.insertionSort (· ≤ ·)).getD j 0 := by
  rcases eq_or_lt_of_le hij with rfl | hlt
  · exact le_refl _
  · have hi : i < (l.insertionSort (· ≤ ·)).length := lt_trans hlt hj
    have hs := List.sorted_insertionSort (· ≤ ·) l
    rw [getD_eq_getElem _ _ hi, getD_eq_getElem _ _ hj]
    have := (List.pairwise_iff_get.mp hs) ⟨i, hi⟩ ⟨j, hj⟩ hlt
    simpa using this

/-- `quantileLinear` is at most any upper bound of the list (for `q ∈ [0, 1]`,
nonempty list). -/
theorem quantileLinear_le_of_le (l : List ℚ) (q m : ℚ) (hne : l ≠ [])
    (hq0 : 0 ≤ q) (hq1 : q ≤ 1) (hm : ∀ y ∈ l, y ≤ m) :
    quantileLinear l q ≤ m := by
  have hn : 0 < l.length := List.length_pos.mpr hne
  have hslen : (l.insertionSort (· ≤ ·)).length = l.length :=
    List.length_insertionSort (· ≤ ·) l
  have hperm : ∀ y ∈ l.insertionSort (· ≤ ·), y ≤ m := fun y hy =>
    hm y ((List.perm_insertionSort (· ≤ ·) l).mem_iff.mp hy)
  have hn1 : (0 : ℚ) ≤ (l.length : ℚ) - 1 := by
    have : (1 : ℚ) ≤ (l.length : ℚ) := by exact_mod_cast hn
    linarith
  have hh0 : 0 ≤ q * ((l.length : ℚ) - 1) := mul_nonneg hq0 hn1
  have hh1 : q * ((l.length : ℚ) - 1) ≤ (l.length : ℚ) - 1 := by
    nlinarith
  have hlo : (floorNat (q * ((l.length : ℚ) - 1)) : ℚ) ≤ (l.length : ℚ) - 1 :=
    le_trans (floorNat_le hh0) hh1
  have hloNat : floorNat (q * ((l.length : ℚ) - 1)) ≤ l.length - 1 := by
    have h2 : ((floorNat (q * ((l.length : ℚ) - 1)) + 1 : ℕ) : ℚ) ≤ (l.length : ℚ) := by
      push_cast
      linarith
    have h3 : floorNat (q * ((l.length : ℚ) - 1)) + 1 ≤ l.length := by exact_mod_cast h2
    omega
  set lo := floorNat (q * ((l.length : ℚ) - 1)) with hlodef
  set hi := min (lo + 1) (l.length - 1) with hhidef
  have hiNat : hi < l.length := by
    have : hi ≤ l.length - 1 := min_le_right _ _
    omega
  have hloLt : lo < l.length := by omega
  have hlohi : lo ≤ hi := le_min (Nat.le_succ lo) hloNat
  have hfrac0 : 0 ≤ q * ((l.length : ℚ) - 1) - (lo : ℚ) := by
    have := floorNat_le hh0
    rw [← hlodef] at this
    linarith
  have hfrac1 : q * ((l.length : ℚ) - 1) - (lo : ℚ) ≤ 1 := by
    have := lt_floorNat_add_one hh0
    rw [← hlodef] at this
    linarith
  have hvmono : (l.insertionSort (· ≤ ·)).getD lo 0 ≤ (l.insertionSort (· ≤ ·)).getD hi 0 :=
    insertionSort_getD_mono l hlohi (by omega)
  have hvhi : (l.insertionSort (· ≤ ·)).getD hi 0 ≤ m :=
    hperm _ (getD_mem _ _ (by omega))
  simp only [quantileLinear]
  rw [if_neg (by omega)]
  rw [← hlodef, ← hhidef]
  nlinarith [hvmono, hvhi, hfrac0, hfrac1]

/-- `quantileLinear` is at least any lower bound of the list (for `q ∈ [0, 1]`,
nonempty list). -/
theorem le_quantileLinear_of_le (l : List ℚ) (q m : ℚ) (hne : l ≠ [])
    (hq0 : 0 ≤ q) (hq1 : q ≤ 1) (hm : ∀ y ∈ l, m ≤ y) :
    m ≤ quantileLinear l q := by
  have hn : 0 < l.length := List.length_pos.mpr hne
  have hslen : (l.insertionSort (· ≤ ·)).length = l.length :=
    List.length_insertionSort (· ≤ ·) l
  have hperm : ∀ y ∈ l.insertionSort (· ≤ ·), m ≤ y := fun y hy =>
    hm y ((List.perm_insertionSort (· ≤ ·) l).mem_iff.mp hy)
  have hn1 : (0 : ℚ) ≤ (l.length : ℚ) - 1 := by
    have : (1 : ℚ) ≤ (l.length : ℚ) := by exact_mod_cast hn
    linarith
  have hh0 : 0 ≤ q * ((l.length : ℚ) - 1) := mul_nonneg hq0 hn1
  have hh1 : q * ((l.length : ℚ) - 1) ≤ (l.length : ℚ) - 1 := by nlinarith
  have hlo : (floorNat (q * ((l.length : ℚ) - 1)) : ℚ) ≤ (l.length : ℚ) - 1 :=
    le_trans (floorNat_le hh0) hh1
  have hloNat : floorNat (q * ((l.length : ℚ) - 1)) ≤ l.length - 1 := by
    have h2 : ((floorNat (q * ((l.length : ℚ) - 1)) + 1 : ℕ) : ℚ) ≤ (l.length : ℚ) := by
      push_cast
      linarith
    have h3 : floorNat (q * ((l.length : ℚ) - 1)) + 1 ≤ l.length := by exact_mod_cast h2
    omega
  set lo := floorNat (q * ((l.length : ℚ) - 1)) with hlodef
  set hi := min (lo + 1) (l.length - 1) with hhidef
  have hiNat : hi < l.length := by
    have : hi ≤ l.length - 1 := min_le_right _ _
    omega
  have hloLt : lo < l.length := by omega
  have hlohi : lo ≤ hi := le_min (Nat.le_succ lo) hloNat
  have hfrac0 : 0 ≤ q * ((l.length : ℚ) - 1) - (lo : ℚ) := by
    have := floorNat_le hh0
    rw [← hlodef] at this
    linarith
  have hvmono : (l.insertionSort (· ≤ ·)).getD lo 0 ≤ (l.insertionSort (· ≤ ·)).getD hi 0 :=
    insertionSort_getD_mono l hlohi (by omega)
  have hvlo : m ≤ (l.insertionSort (· ≤ ·)).getD lo 0 :=
    hperm _ (getD_mem _ _ (by omega))
  simp only [quantileLinear]
  rw [if_neg (by omega)]
  rw [← hlodef, ← hhidef]
  nlinarith [hvmono, hvlo, hfrac0]

/-- Counting split used for rank monotonicity: entries below `x` plus entries
equal to `x` are all below `y` when `x < y`. -/
theorem countP_lt_eq_le (l : List ℚ) {x y : ℚ} (hxy : x < y) :
    l.countP (fun z => decide (z < x)) + l.countP (fun z => decide (z = x)) ≤
      l.countP (fun z => decide (z < y)) := by
  induction l with
  | nil => simp
  | cons a as ih =>
      simp only [List.countP_cons, decide_eq_true_eq]
      by_cases h1 : a < x
      · have hay : a < y := lt_trans h1 hxy
        have hne : ¬(a = x) := ne_of_lt h1
        simp only [if_pos h1, if_pos hay, if_neg hne]
        omega
      · by_cases h2 : a = x
        · have hay : a < y := h2 ▸ hxy
          simp only [if_neg h1, if_pos h2, if_pos hay]
          omega
        · by_cases h3 : a < y
          · simp only [if_neg h1, if_neg h2, if_pos h3]
            omega
          · simp only [if_neg h1, if_neg h2, if_neg h3]
            omega

/-- pandas average rank is monotone in the value. -/
theorem rankOf_mono (valid : List ℚ) {x y : ℚ} (hxy : x ≤ y) :
    rankOf valid x ≤ rankOf valid y := by
  rcases eq_or_lt_of_le hxy with rfl | hlt
  · exact le_refl _
  · unfold rankOf
    have hsplit := countP_lt_eq_le valid hlt
    have h1 : ((valid.countP fun z => decide (z < x)) : ℚ) +
        ((valid.countP fun z => decide (z = x)) : ℚ) ≤
        ((valid.countP fun z => decide (z < y)) : ℚ) := by exact_mod_cast hsplit
    have h2 : (0 : ℚ) ≤ ((valid.countP fun z => decide (z = x)) : ℚ) := by positivity
    have h3 : (0 : ℚ) ≤ ((valid.countP fun z => decide (z = y)) : ℚ) := by positivity
    linarith

/-! ### Rank-scheme cross-section lemmas -/

/-- A separated pair of decile thresholds forces a nonempty cross-section. -/
theorem valid_ne_nil_of_sep {valid : List ℚ}
    (hsep : quantileLinear (rankList valid) (1 / 10) <
      quantileLinear (rankList valid) (9 / 10)) : valid ≠ [] := by
  intro h
  subst h
  simp [rankList, quantileLinear] at hsep

/-- When the decile thresholds are separated, the long side is nonempty: the
maximal signal lands there. -/
theorem exists_rankBase_one {valid : List ℚ}
    (hsep : quantileLinear (rankList valid) (1 / 10) <
      quantileLinear (rankList valid) (9 / 10)) :
    ∃ x ∈ valid, rankBase valid x = 1 := by
  have hne := valid_ne_nil_of_sep hsep
  obtain ⟨x, hx, hxall⟩ := exists_max_elem valid hne
  have hrne : rankList valid ≠ [] := by
    simpa [rankList] using hne
  have hbound : ∀ r ∈ rankList valid, r ≤ rankOf valid x := by
    intro r hr
    obtain ⟨z, hz, rfl⟩ := List.mem_map.mp hr
    exact rankOf_mono valid (hxall z hz)
  have hqL : quantileLinear (rankList valid) (9 / 10) ≤ rankOf valid x :=
    quantileLinear_le_of_le _ _ _ hrne (by norm_num) (by norm_num) hbound
  refine ⟨x, hx, ?_⟩
  unfold rankBase
  have hnotshort : ¬(rankOf valid x ≤ quantileLinear (rankList valid) (1 / 10)) := by
    intro hcon
    exact absurd (lt_of_lt_of_le hsep hqL) (not_lt.mpr hcon)
  rw [if_neg hnotshort, if_pos hqL]

/-- When the decile thresholds are separated, the short side is nonempty: the
minimal signal lands there. -/
theorem exists_rankBase_negone {valid : List ℚ}
    (hsep : quantileLinear (rankList valid) (1 / 10) <
      quantileLinear (rankList valid) (9 / 10)) :
    ∃ x ∈ valid, rankBase valid x = -1 := by
  have hne := valid_ne_nil_of_sep hsep
  obtain ⟨x, hx, hxall⟩ := exists_min_elem valid hne
  have hrne : rankList valid ≠ [] := by
    simpa [rankList] using hne
  have hbound : ∀ r ∈ rankList valid, rankOf valid x ≤ r := by
    intro r hr
    obtain ⟨z, hz, rfl⟩ := List.mem_map.mp hr
    exact rankOf_mono valid (hxall z hz)
  have hqS : rankOf valid x ≤ quantileLinear (rankList valid) (1 / 10) :=
    le_quantileLinear_of_le _ _ _ hrne (by norm_num) (by norm_num) hbound
  refine ⟨x, hx, ?_⟩
  unfold rankBase
  rw [if_pos hqS]

/-- `rankBase` only takes the values `-1`, `1` and `0`. -/
theorem rankBase_cases (valid : List ℚ) (x : ℚ) :
    rankBase valid x = -1 ∨ rankBase valid x = 1 ∨ rankBase valid x = 0 := by
  unfold rankBase
  by_cases h1 : rankOf valid x ≤ quantileLinear (rankList valid) (1 / 10)
  · left; rw [if_pos h1]
  · rw [if_neg h1]
    by_cases h2 : quantileLinear (rankList valid) (9 / 10) ≤ rankOf valid x
    · right; left; rw [if_pos h2]
    · right; right; rw [if_neg h2]

/-- Positive part of the normalized rank weight, as an indicator. -/
theorem rmax_rankNormalized (valid : List ℚ) (hl : 0 < longCount valid) (x : ℚ) :
    rmax (rankNormalized valid x) 0 =
      if decide (rankBase valid x = 1) then 1 / (longCount valid : ℚ) else 0 := by
  have hlpos : (0 : ℚ) < 1 / (longCount valid : ℚ) := by
    have : (0 : ℚ) < (longCount valid : ℚ) := by exact_mod_cast hl
    positivity
  have hinv : (0 : ℚ) ≤ 1 / (shortCount valid : ℚ) :=
    div_nonneg (by norm_num) (Nat.cast_nonneg _)
  rcases rankBase_cases valid x with hb | hb | hb
  · have hc1 : ¬((-1 : ℚ) = 1) := by norm_num
    have h' : -(1 / (shortCount valid : ℚ)) ≤ 0 := neg_nonpos.mpr hinv
    simp only [rankNormalized, hb, decide_eq_true_eq, if_neg hc1, if_true]
    unfold rmax
    rw [if_pos h']
  · have hc3 : ¬((1 : ℚ) = -1) := by norm_num
    simp only [rankNormalized, hb, decide_eq_true_eq, if_true, if_neg hc3]
    unfold rmax
    rw [if_neg (not_le.mpr hlpos)]
  · have hc1 : ¬((0 : ℚ) = 1) := by norm_num
    have hc2 : ¬((0 : ℚ) = -1) := by norm_num
    simp only [rankNormalized, hb, decide_eq_true_eq, if_neg hc1, if_neg hc2]
    unfold rmax
    rw [if_pos (le_refl (0 : ℚ))]

/-- Negative part of the normalized rank weight, as an indicator. -/
theorem rmin_rankNormalized (valid : List ℚ) (hs : 0 < shortCount valid) (x : ℚ) :
    rmin (rankNormalized valid x) 0 =
      if decide (rankBase valid x = -1) then -(1 / (shortCount valid : ℚ)) else 0 := by
  have hspos : (0 : ℚ) < 1 / (shortCount valid : ℚ) := by
    have : (0 : ℚ) < (shortCount valid : ℚ) := by exact_mod_cast hs
    positivity
  have hinvl : (0 : ℚ) ≤ 1 / (longCount valid : ℚ) :=
    div_nonneg (by norm_num) (Nat.cast_nonneg _)
  rcases rankBase_cases valid x with hb | hb | hb
  · have hc1 : ¬((-1 : ℚ) = 1) := by norm_num
    simp only [rankNormalized, hb, decide_eq_true_eq, if_neg hc1, if_true]
    unfold rmin
    rw [if_pos (neg_nonpos.mpr (le_of_lt hspos))]
  · have hc3 : ¬((1 : ℚ) = -1) := by norm_num
    simp only [rankNormalized, hb, decide_eq_true_eq, if_true, if_neg hc3]
    unfold rmin
    rcases eq_or_lt_of_le hinvl with heq | hlt
    · rw [← heq]
      simp
    · rw [if_neg (not_le.mpr hlt)]
  · have hc1 : ¬((0 : ℚ) = 1) := by norm_num
    have hc2 : ¬((0 : ℚ) = -1) := by norm_num
    simp only [rankNormalized, hb, decide_eq_true_eq, if_neg hc1, if_neg hc2]
    unfold rmin
    rw [if_pos (le_refl (0 : ℚ))]

/-- The leverage constraint bounds the total absolute weight by the cap. -/
theorem scaleIfAbove_sum_le (cap : ℚ) (valid : List ℚ) (f : ℚ → ℚ) (hcap : 0 ≤ cap) :
    (valid.map fun y => rabs (scaleIfAbove cap valid f y)).sum ≤ cap := by
  unfold scaleIfAbove
  have htot0 : 0 ≤ (valid.map fun y => rabs (f y)).sum :=
    sum_map_nonneg _ _ fun y _ => rabs_nonneg _
  by_cases h : cap < (valid.map fun y => rabs (f y)).sum
  · rw [if_pos h]
    have htpos : 0 < (valid.map fun y => rabs (f y)).sum := lt_of_le_of_lt hcap h
    have hknn : 0 ≤ cap / (valid.map fun y => rabs (f y)).sum :=
      div_nonneg hcap (le_of_lt htpos)
    have hmap : (valid.map fun y =>
        rabs (f y * (cap / (valid.map fun z => rabs (f z)).sum))).sum
        = (valid.map fun y =>
            rabs (f y) * (cap / (valid.map fun z => rabs (f z)).sum)).sum := by
      congr 1
      apply List.map_congr_left
      intro y _
      rw [rabs_mul, rabs_of_nonneg hknn]
    rw [hmap, List.sum_map_mul_right, mul_comm]
    rw [div_mul_cancel₀ _ (ne_of_gt htpos)]
  · rw [if_neg h]
    linarith

/-! ### Claim C3 -/

/-- C3 (amended): under the rank scheme, when the 10th- and 90th-percentile
thresholds of the rank cross-section are distinct (which fails for a
single-entry cross-section, see the counterexample) and the leverage cap is
non-negative, the pre-leverage-scaling weights have positive part summing to
exactly 1 and negative part summing to exactly -1, and the post-scaling total
absolute weight is at most the cap. -/
theorem claim_C3 (valid : List ℚ) (cap : ℚ) (hcap : 0 ≤ cap)
    (hsep : quantileLinear (rankList valid) (1 / 10) <
      quantileLinear (rankList valid) (9 / 10)) :
    (valid.map fun y => rmax (rankNormalized valid y) 0).sum = 1 ∧
    (valid.map fun y => rmin (rankNormalized valid y) 0).sum = -1 ∧
    (valid.map fun y => rabs (rankWeights cap valid y)).sum ≤ cap := by
  obtain ⟨xl, hxl, hxlb⟩ := exists_rankBase_one hsep
  obtain ⟨xs, hxs, hxsb⟩ := exists_rankBase_negone hsep
  have hl : 0 < longCount valid := List.countP_pos_iff.mpr ⟨xl, hxl, by simp [hxlb]⟩
  have hs : 0 < shortCount valid := List.countP_pos_iff.mpr ⟨xs, hxs, by simp [hxsb]⟩
  have hlQ : ((longCount valid : ℚ)) ≠ 0 :=
    Nat.cast_ne_zero.mpr (Nat.pos_iff_ne_zero.mp hl)
  have hsQ : ((shortCount valid : ℚ)) ≠ 0 :=
    Nat.cast_ne_zero.mpr (Nat.pos_iff_ne_zero.mp hs)
  refine ⟨?_, ?_, ?_⟩
  · rw [List.map_congr_left fun y _ => rmax_rankNormalized valid hl y]
    rw [sum_map_ite]
    show ((longCount valid : ℚ)) * (1 / (longCount valid : ℚ)) = 1
    field_simp
  · rw [List.map_congr_left fun y _ => rmin_rankNormalized valid hs y]
    rw [sum_map_ite]
    show ((shortCount valid : ℚ)) * (-(1 / (shortCount valid : ℚ))) = -1
    field_simp
  · unfold rankWeights
    exact scaleIfAbove_sum_le cap valid _ hcap

section
attribute [local semireducible] Rat.mul Rat.inv Rat.add Rat.sub

/-- C3 counterexample: for the single-entry cross-section `[5]` (which has no
rank ties), the coinciding decile thresholds make the short assignment
overwrite the long one, so the single entry gets normalized weight -1 and the
sum of positive pre-scaling weights is 0, not 1. -/
theorem claim_C3_counterexample :
    rankNormalized [(5 : ℚ)] 5 = -1 ∧
    ¬((([(5 : ℚ)]).map fun y => rmax (rankNormalized [(5 : ℚ)] y) 0).sum = 1) := by
  decide

/-- C3 witness: the amended statement instantiated at the two-entry
cross-section `[1, 2]` with cap 1. -/
theorem claim_C3_witness :
    ((0 : ℚ) ≤ 1 ∧ quantileLinear (rankList [(1 : ℚ), 2]) (1 / 10) <
        quantileLinear (rankList [(1 : ℚ), 2]) (9 / 10)) ∧
    ((([(1 : ℚ), 2]).map fun y => rmax (rankNormalized [(1 : ℚ), 2] y) 0).sum = 1 ∧
      (([(1 : ℚ), 2]).map fun y => rmin (rankNormalized [(1 : ℚ), 2] y) 0).sum = -1 ∧
      (([(1 : ℚ), 2]).map fun y => rabs (rankWeights 1 [(1 : ℚ), 2] y)).sum ≤ 1) :=
  ⟨⟨by norm_num, by decide⟩, claim_C3 [(1 : ℚ), 2] 1 (by norm_num) (by decide)⟩

end

/-! ### Claim C2 -/

theorem restrictFrame_index (f : Frame) (ds : List Date) :
    (restrictFrame f ds).index = ds := by
  simp only [restrictFrame, Frame.index, List.map_map]
  have h : ∀ a ∈ ds, (Prod.fst ∘ fun d => (d, findRow f d)) a = id a := fun a _ => rfl
  rw [List.map_congr_left h, List.map_id]

/-- C2: construction fails (with the alignment error, the only construction
failure) iff the two date indices have empty intersection; on success both
stored panels are restricted to exactly the intersection, have equal length,
and keep their original column sets. -/
theorem claim_C2 (p s : Frame) (cfg : Config) :
    ((∃ e, mkBacktest p s cfg = .error e) ↔ alignDates p.index s.index = []) ∧
    (∀ e, mkBacktest p s cfg = .error e →
      e = .alignment "No common dates between prices and signals") ∧
    (∀ bt, mkBacktest p s cfg = .ok bt →
      bt.prices.index = alignDates p.index s.index ∧
      bt.signals.index = alignDates p.index s.index ∧
      bt.prices.rows.length = bt.signals.rows.length ∧
      bt.prices.assets = p.assets ∧ bt.signals.assets = s.assets) := by
  by_cases h : alignDates p.index s.index = []
  · refine ⟨⟨fun _ => h, fun _ => ?_⟩, fun e he => ?_, fun bt hbt => ?_⟩
    · exact ⟨.alignment "No common dates between prices and signals", by
        simp [mkBacktest, h]⟩
    · simp [mkBacktest, h] at he
      exact he.symm
    · simp [mkBacktest, h] at hbt
  · refine ⟨⟨fun ⟨e, he⟩ => ?_, fun hc => absurd hc h⟩, fun e he => ?_, fun bt hbt => ?_⟩
    · simp [mkBacktest, h] at he
    · simp [mkBacktest, h] at he
    · simp only [mkBacktest, if_neg h] at hbt
      injection hbt with hbt
      subst hbt
      refine ⟨restrictFrame_index _ _, restrictFrame_index _ _, ?_, rfl, rfl⟩
      simp [restrictFrame]

/-- C2 witness: the alignment contract instantiated at a concrete pair of
panels (the inner implications are exercised by the construction result). -/
theorem claim_C2_witness :
    ((∃ e, mkBacktest exPrices exSignals exCfg = .error e) ↔
      alignDates exPrices.index exSignals.index = []) ∧
    (∀ e, mkBacktest exPrices exSignals exCfg = .error e →
      e = .alignment "No common dates between prices and signals") ∧
    (∀ bt, mkBacktest exPrices exSignals exCfg = .ok bt →
      bt.prices.index = alignDates exPrices.index exSignals.index ∧
      bt.signals.index = alignDates exPrices.index exSignals.index ∧
      bt.prices.rows.length = bt.signals.rows.length ∧
      bt.prices.assets = exPrices.assets ∧ bt.signals.assets = exSignals.assets) :=
  claim_C2 exPrices exSignals exCfg

section
attribute [local semireducible] Rat.mul Rat.inv Rat.add Rat.sub

/-- C9: evaluating the drawdown computation at the failing input: the return
series +10 percent then -20 percent, on consecutive days.  The cumulative
curve peaks on day 0 and troughs on day 1, so the documented duration
(last prior peak to trough) is 1 day, but the code computes 0: its
start-candidate search runs over the running-maximum series, which still
attains its maximum at the trough itself, so the last candidate is always the
trough. -/
theorem claim_C9 :
    calculateDrawdown [(exDate0, 1 / 10), (exDate1, -(1 / 5))] = (-(1 / 5), 0) ∧
    exDate1.ord - exDate0.ord = 1 := by
  decide

end

/-! ### Forward-fill machinery -/

theorem findVal_cons (d dv : Date) (v : ℚ) (vals : List (Date × ℚ)) :
    findVal ((dv, v) :: vals) d = if d = dv then some v else findVal vals d := rfl

theorem findVal_eq_none {vals : List (Date × ℚ)} {d : Date}
    (h : d ∉ vals.map Prod.fst) : findVal vals d = none := by
  induction vals with
  | nil => rfl
  | cons e vs ih =>
      obtain ⟨de, ve⟩ := e
      simp only [List.map_cons, List.mem_cons] at h
      push_neg at h
      unfold findVal
      rw [if_neg h.1]
      exact ih h.2

theorem reindexFfill_length (idx : List Date) (vals : List (Date × ℚ)) (c : ℚ) :
    (reindexFfill idx vals c).length = idx.length := by
  induction idx generalizing c with
  | nil => rfl
  | cons d ds ih => simp [reindexFfill, ih]

theorem nthDate_reindexFfill (idx : List Date) (vals : List (Date × ℚ)) (c : ℚ)
    (i : Nat) (h : i < idx.length) :
    nthDate (reindexFfill idx vals c) i = idx.getD i dD := by
  induction idx generalizing c i with
  | nil => simp at h
  | cons d ds ih =>
      cases i with
      | zero => rfl
      | succ j =>
          show nthDate (reindexFfill ds vals ((findVal vals d).getD c)) j = ds.getD j dD
          exact ih _ j (by simpa using h)

theorem nthVal_reindexFfill_zero (idx : List Date) (vals : List (Date × ℚ)) (c : ℚ)
    (h : idx ≠ []) :
    nthVal (reindexFfill idx vals c) 0 = (findVal vals (idx.getD 0 dD)).getD c := by
  cases idx with
  | nil => exact absurd rfl h
  | cons d ds => rfl

theorem nthVal_reindexFfill_succ (idx : List Date) (vals : List (Date × ℚ)) (c : ℚ)
    (i : Nat) (h : i + 1 < idx.length) :
    nthVal (reindexFfill idx vals c) (i + 1) =
      (findVal vals (idx.getD (i + 1) dD)).getD (nthVal (reindexFfill idx vals c) i) := by
  induction idx generalizing c i with
  | nil => simp at h
  | cons d ds ih =>
      cases i with
      | zero =>
          have hds : ds ≠ [] := by
            intro hc
            rw [hc] at h
            simp at h
          show nthVal (reindexFfill ds vals ((findVal vals d).getD c)) 0 =
            (findVal vals (ds.getD 0 dD)).getD (nthVal (reindexFfill (d :: ds) vals c) 0)
          rw [nthVal_reindexFfill_zero ds vals _ hds]
          rfl
      | succ j =>
          show nthVal (reindexFfill ds vals ((findVal vals d).getD c)) (j + 1) =
            (findVal vals (ds.getD (j + 1) dD)).getD
              (nthVal (reindexFfill ds vals ((findVal vals d).getD c)) j)
          exact ih _ j (by simpa using h)

theorem sublist_tail_of_ne {α : Type} {a b : α} {l1 l2 : List α}
    (h : List.Sublist (a :: l1) (b :: l2)) (hne : a ≠ b) : List.Sublist (a :: l1) l2 := by
  cases h with
  | cons _ h' => exact h'
  | cons₂ => exact absurd rfl hne

theorem reindexFfill_drop_head {idx : List Date} {dv : Date} {v : ℚ}
    {vals : List (Date × ℚ)} (h : dv ∉ idx) (c : ℚ) :
    reindexFfill idx ((dv, v) :: vals) c = reindexFfill idx vals c := by
  induction idx generalizing c with
  | nil => rfl
  | cons d ds ih =>
      simp only [List.mem_cons] at h
      push_neg at h
      have hne : ¬(d = dv) := fun hc => h.1 hc.symm
      show (d, (findVal ((dv, v) :: vals) d).getD c) ::
          reindexFfill ds ((dv, v) :: vals) ((findVal ((dv, v) :: vals) d).getD c) =
        (d, (findVal vals d).getD c) :: reindexFfill ds vals ((findVal vals d).getD c)
      rw [findVal_cons, if_neg hne, ih h.2]

theorem reindexFfill_eq_ffillMerge (idx : List Date) (vals : List (Date × ℚ)) (c : ℚ)
    (hnd : idx.Nodup) (hsub : List.Sublist (vals.map Prod.fst) idx) :
    reindexFfill idx vals c = ffillMerge idx vals c := by
  induction idx generalizing vals c with
  | nil =>
      have : vals = [] := by
        have := List.sublist_nil.mp hsub
        simpa using this
      subst this
      rfl
  | cons d ds ih =>
      have hnd' : ds.Nodup := (List.nodup_cons.mp hnd).2
      have hdnot : d ∉ ds := (List.nodup_cons.mp hnd).1
      cases vals with
      | nil =>
          show (d, (findVal [] d).getD c) :: reindexFfill ds [] ((findVal [] d).getD c) =
            (d, c) :: ffillMerge ds [] c
          rw [show findVal [] d = none from rfl]
          show (d, c) :: reindexFfill ds [] c = (d, c) :: ffillMerge ds [] c
          rw [ih [] c hnd' (by simp)]
      | cons e vs =>
          obtain ⟨dv, v⟩ := e
          by_cases hd : d = dv
          · subst hd
            have hsub' : List.Sublist (vs.map Prod.fst) ds := by
              have h2 : List.Sublist (d :: vs.map Prod.fst) (d :: ds) := by
                simpa using hsub
              exact List.cons_sublist_cons.mp h2
            show (d, (findVal ((d, v) :: vs) d).getD c) ::
                reindexFfill ds ((d, v) :: vs) ((findVal ((d, v) :: vs) d).getD c) =
              ffillMerge (d :: ds) ((d, v) :: vs) c
            have hfv : findVal ((d, v) :: vs) d = some v := by
              rw [findVal_cons, if_pos rfl]
            rw [hfv]
            show (d, v) :: reindexFfill ds ((d, v) :: vs) v =
              ffillMerge (d :: ds) ((d, v) :: vs) c
            rw [reindexFfill_drop_head hdnot v]
            unfold ffillMerge
            rw [if_pos rfl]
            rw [ih vs v hnd' hsub']
          · have hsub' : List.Sublist (((dv, v) :: vs).map Prod.fst) ds := by
              have h1 : List.Sublist (dv :: vs.map Prod.fst) (d :: ds) := by
                simpa using hsub
              have := sublist_tail_of_ne h1 fun hc => hd hc.symm
              simpa using this
            have hdnotv : d ∉ ((dv, v) :: vs).map Prod.fst := by
              intro hc
              exact hdnot (hsub'.subset hc)
            show (d, (findVal ((dv, v) :: vs) d).getD c) ::
                reindexFfill ds ((dv, v) :: vs) ((findVal ((dv, v) :: vs) d).getD c) =
              ffillMerge (d :: ds) ((dv, v) :: vs) c
            rw [findVal_eq_none hdnotv]
            unfold ffillMerge
            rw [if_neg hd]
            show (d, c) :: reindexFfill ds ((dv, v) :: vs) c =
              (d, c) :: ffillMerge ds ((dv, v) :: vs) c
            rw [ih _ c hnd' hsub']

theorem ffillMerge_cons_nil (d : Date) (ds : List Date) (c : ℚ) :
    ffillMerge (d :: ds) [] c = (d, c) :: ffillMerge ds [] c := rfl

theorem ffillMerge_cons_cons (d : Date) (ds : List Date) (dv : Date) (v : ℚ)
    (vs : List (Date × ℚ)) (c : ℚ) :
    ffillMerge (d :: ds) ((dv, v) :: vs) c =
      if d = dv then (d, v) :: ffillMerge ds vs v
      else (d, c) :: ffillMerge ds ((dv, v) :: vs) c := rfl

theorem ffillMerge_length (idx : List Date) (vals : List (Date × ℚ)) (c : ℚ) :
    (ffillMerge idx vals c).length = idx.length := by
  induction idx generalizing vals c with
  | nil => cases vals <;> rfl
  | cons d ds ih =>
      cases vals with
      | nil => simp [ffillMerge, ih]
      | cons e vs =>
          obtain ⟨dv, v⟩ := e
          by_cases hd : d = dv
          · simp [ffillMerge, if_pos hd, ih]
          · simp [ffillMerge, if_neg hd, ih]

/-- The first value entry appears in the merge, and every position before it
carries the initial value. -/
theorem ffillMerge_first (idx : List Date) (d : Date) (v : ℚ)
    (vs : List (Date × ℚ)) (c : ℚ)
    (hsub : List.Sublist (((d, v) :: vs).map Prod.fst) idx) :
    ∃ p, p < (ffillMerge idx ((d, v) :: vs) c).length ∧
      (ffillMerge idx ((d, v) :: vs) c).getD p (dD, 0) = (d, v) ∧
      ∀ q, q < p → nthVal (ffillMerge idx ((d, v) :: vs) c) q = c := by
  induction idx generalizing c with
  | nil =>
      have := List.sublist_nil.mp hsub
      simp at this
  | cons d' ds ih =>
      by_cases hd : d' = d
      · refine ⟨0, ?_, ?_, ?_⟩
        · rw [ffillMerge_cons_cons, if_pos hd]
          simp
        · rw [ffillMerge_cons_cons, if_pos hd]
          simp [hd]
        · intro q hq
          simp at hq
      · have hsub' : List.Sublist (((d, v) :: vs).map Prod.fst) ds := by
          have h1 : List.Sublist (d :: vs.map Prod.fst) (d' :: ds) := by
            simpa using hsub
          have := sublist_tail_of_ne h1 fun hc => hd hc.symm
          simpa using this
        obtain ⟨p, hp, hpe, hpre⟩ := ih c hsub'
        have heq : (ffillMerge (d' :: ds) ((d, v) :: vs) c) =
            (d', c) :: ffillMerge ds ((d, v) :: vs) c := by
          rw [ffillMerge_cons_cons, if_neg hd]
        refine ⟨p + 1, ?_, ?_, ?_⟩
        · rw [heq]
          simpa using hp
        · rw [heq]
          exact hpe
        · intro q hq
          rw [heq]
          cases q with
          | zero => rfl
          | succ q' =>
              show nthVal (ffillMerge ds ((d, v) :: vs) c) q' = c
              exact hpre q' (by omega)

/-- Consecutive value entries appear at consecutive carry blocks in the
merge: entry `j + 1` sits at some position whose predecessor carries entry
`j`'s value. -/
theorem ffillMerge_chain (idx : List Date) (vals : List (Date × ℚ)) (c : ℚ)
    (j : Nat) (hsub : List.Sublist (vals.map Prod.fst) idx)
    (hj : j + 1 < vals.length) :
    ∃ p, p + 1 < (ffillMerge idx vals c).length ∧
      (ffillMerge idx vals c).getD (p + 1) (dD, 0) = vals.getD (j + 1) (dD, 0) ∧
      nthVal (ffillMerge idx vals c) p = nthVal vals j := by
  induction idx generalizing vals c j with
  | nil =>
      have := List.sublist_nil.mp hsub
      have hv : vals = [] := by simpa using this
      rw [hv] at hj
      simp at hj
  | cons d' ds ih =>
      cases vals with
      | nil => simp at hj
      | cons e vtail =>
          obtain ⟨d0, v0⟩ := e
          by_cases hd : d' = d0
          · have hsub' : List.Sublist (vtail.map Prod.fst) ds := by
              have h2 : List.Sublist (d0 :: vtail.map Prod.fst) (d0 :: ds) := by
                have h3 : List.Sublist (d0 :: vtail.map Prod.fst) (d' :: ds) := by
                  simpa using hsub
                rw [hd] at h3
                exact h3
              exact List.cons_sublist_cons.mp h2
            have heq : ffillMerge (d' :: ds) ((d0, v0) :: vtail) c =
                (d', v0) :: ffillMerge ds vtail v0 := by
              rw [ffillMerge_cons_cons, if_pos hd]
            cases j with
            | zero =>
                cases vtail with
                | nil => simp at hj
                | cons e1 vs =>
                    obtain ⟨d1, v1⟩ := e1
                    obtain ⟨p, hp, hpe, hpre⟩ := ffillMerge_first ds d1 v1 vs v0 hsub'
                    refine ⟨p, ?_, ?_, ?_⟩
                    · rw [heq]
                      simpa using hp
                    · rw [heq]
                      show (ffillMerge ds ((d1, v1) :: vs) v0).getD p (dD, 0) =
                        ((d1, v1) :: vs).getD 0 (dD, 0)
                      simpa using hpe
                    · rw [heq]
                      cases p with
                      | zero => rfl
                      | succ p' =>
                          show nthVal (ffillMerge ds ((d1, v1) :: vs) v0) p' = v0
                          exact hpre p' (by omega)
            | succ j' =>
                obtain ⟨p, hp, hpe, hpre⟩ := ih vtail v0 j' hsub' (by simpa using hj)
                refine ⟨p + 1, ?_, ?_, ?_⟩
                · rw [heq]
                  simpa using hp
                · rw [heq]
                  exact hpe
                · rw [heq]
                  exact hpre
          · have hsub' : List.Sublist (((d0, v0) :: vtail).map Prod.fst) ds := by
              have h1 : List.Sublist (d0 :: vtail.map Prod.fst) (d' :: ds) := by
                simpa using hsub
              have := sublist_tail_of_ne h1 fun hc => hd hc.symm
              simpa using this
            have heq : ffillMerge (d' :: ds) ((d0, v0) :: vtail) c =
                (d', c) :: ffillMerge ds ((d0, v0) :: vtail) c := by
              rw [ffillMerge_cons_cons, if_neg hd]
            obtain ⟨p, hp, hpe, hpre⟩ := ih ((d0, v0) :: vtail) c j hsub' hj
            refine ⟨p + 1, ?_, ?_, ?_⟩
            · rw [heq]
              simpa using hp
            · rw [heq]
              exact hpe
            · rw [heq]
              exact hpre

theorem lastVal_cons (x : Date × ℚ) {l : List (Date × ℚ)} (h : l ≠ []) (dflt : ℚ) :
    lastVal (x :: l) dflt = lastVal l dflt := by
  unfold lastVal
  cases l with
  | nil => exact absurd rfl h
  | cons y ys => rw [List.getLast?_cons_cons]

/-- The last merged value is the last value entry (or the initial carry for an
empty value list). -/
theorem ffillMerge_lastVal (idx : List Date) (vals : List (Date × ℚ)) (c : ℚ)
    (hne : idx ≠ []) (hsub : List.Sublist (vals.map Prod.fst) idx) :
    lastVal (ffillMerge idx vals c) 0 = ((vals.getLast?).map Prod.snd).getD c := by
  induction idx generalizing vals c with
  | nil => exact absurd rfl hne
  | cons d' ds ih =>
      cases vals with
      | nil =>
          show lastVal ((d', c) :: ffillMerge ds [] c) 0 = c
          cases ds with
          | nil => rfl
          | cons d2 ds2 =>
              have hlen : ffillMerge (d2 :: ds2) ([] : List (Date × ℚ)) c ≠ [] := by
                intro hc
                have := ffillMerge_length (d2 :: ds2) ([] : List (Date × ℚ)) c
                rw [hc] at this
                simp at this
              rw [lastVal_cons _ hlen]
              exact ih [] c (by simp) (by simp)
      | cons e vs =>
          obtain ⟨dv, v⟩ := e
          by_cases hd : d' = dv
          · have heq : ffillMerge (d' :: ds) ((dv, v) :: vs) c =
                (d', v) :: ffillMerge ds vs v := by
              rw [ffillMerge_cons_cons, if_pos hd]
            have hsub' : List.Sublist (vs.map Prod.fst) ds := by
              have h2 : List.Sublist (dv :: vs.map Prod.fst) (dv :: ds) := by
                have h3 : List.Sublist (dv :: vs.map Prod.fst) (d' :: ds) := by
                  simpa using hsub
                rw [hd] at h3
                exact h3
              exact List.cons_sublist_cons.mp h2
            cases ds with
            | nil =>
                have hvs : vs = [] := by
                  have := List.sublist_nil.mp hsub'
                  simpa using this
                subst hvs
                rw [heq]
                rfl
            | cons d2 ds2 =>
                have hlen : ffillMerge (d2 :: ds2) vs v ≠ [] := by
                  intro hc
                  have := ffillMerge_length (d2 :: ds2) vs v
                  rw [hc] at this
                  simp at this
                rw [heq]
                rw [lastVal_cons _ hlen]
                rw [ih vs v (by simp) hsub']
                cases vs with
                | nil => rfl
                | cons e2 vs2 =>
                    cases hz : (e2 :: vs2).getLast? with
                    | none =>
                        rw [List.getLast?_eq_none_iff] at hz
                        simp at hz
                    | some z => simp [hz]
          · have hsub' : List.Sublist (((dv, v) :: vs).map Prod.fst) ds := by
              have h1 : List.Sublist (dv :: vs.map Prod.fst) (d' :: ds) := by
                simpa using hsub
              have := sublist_tail_of_ne h1 fun hc => hd hc.symm
              simpa using this
            have heq : ffillMerge (d' :: ds) ((dv, v) :: vs) c =
                (d', c) :: ffillMerge ds ((dv, v) :: vs) c := by
              rw [ffillMerge_cons_cons, if_neg hd]
            have hdsne : ds ≠ [] := by
              intro hc
              rw [hc] at hsub'
              have := List.sublist_nil.mp hsub'
              simp at this
            cases ds with
            | nil => exact absurd rfl hdsne
            | cons d2 ds2 =>
                have hlen : ffillMerge (d2 :: ds2) ((dv, v) :: vs) c ≠ [] := by
                  intro hc
                  have := ffillMerge_length (d2 :: ds2) ((dv, v) :: vs) c
                  rw [hc] at this
                  simp at this
                rw [heq]
                rw [lastVal_cons _ hlen]
                exact ih ((dv, v) :: vs) c (by simp) hsub'

/-! ### Series, cumulative product and loop lemmas -/

/-- Every entry of `pctSeries` comes from a consecutive pair of the input and
satisfies the compounding identity. -/
theorem pctSeries_mem (l : List (Date × ℚ)) (d : Date) (r : ℚ)
    (h : (d, r) ∈ pctSeries l) :
    ∃ i, i + 1 < l.length ∧ nthDate l (i + 1) = d ∧ nthVal l i ≠ 0 ∧
      nthVal l (i + 1) = nthVal l i * (1 + r) := by
  induction l with
  | nil => simp [pctSeries] at h
  | cons e0 rest0 ih =>
      obtain ⟨d0, v0⟩ := e0
      cases rest0 with
      | nil => simp [pctSeries] at h
      | cons e1 rest =>
          obtain ⟨d1, v1⟩ := e1
          rw [show pctSeries ((d0, v0) :: (d1, v1) :: rest) =
              (if v0 = 0 then [] else [(d1, v1 / v0 - 1)]) ++
                pctSeries ((d1, v1) :: rest) from rfl] at h
          rcases List.mem_append.mp h with h1 | h2
          · by_cases hz : v0 = 0
            · rw [if_pos hz] at h1
              simp at h1
            · rw [if_neg hz] at h1
              have h1' : (d, r) = (d1, v1 / v0 - 1) := List.mem_singleton.mp h1
              have hd : d = d1 := congrArg Prod.fst h1'
              have hr : r = v1 / v0 - 1 := congrArg Prod.snd h1'
              refine ⟨0, by simp, ?_, hz, ?_⟩
              · show d1 = d
                exact hd.symm
              · show v1 = v0 * (1 + r)
                rw [hr]
                field_simp
          · obtain ⟨i, hlen, hdate, hnz, hval⟩ := ih h2
            exact ⟨i + 1, by simpa using hlen, hdate, hnz, hval⟩

/-- Conversely, a consecutive pair with nonzero previous value contributes its
percentage change to `pctSeries`. -/
theorem pctSeries_of_pos (l : List (Date × ℚ)) (i : Nat) (h : i + 1 < l.length)
    (hnz : nthVal l i ≠ 0) :
    (nthDate l (i + 1), nthVal l (i + 1) / nthVal l i - 1) ∈ pctSeries l := by
  induction l generalizing i with
  | nil => simp at h
  | cons e0 rest0 ih =>
      obtain ⟨d0, v0⟩ := e0
      cases rest0 with
      | nil => simp at h
      | cons e1 rest =>
          obtain ⟨d1, v1⟩ := e1
          rw [show pctSeries ((d0, v0) :: (d1, v1) :: rest) =
              (if v0 = 0 then [] else [(d1, v1 / v0 - 1)]) ++
                pctSeries ((d1, v1) :: rest) from rfl]
          cases i with
          | zero =>
              apply List.mem_append_left
              have hz : ¬(v0 = 0) := hnz
              rw [if_neg hz]
              simp [nthDate, nthVal]
          | succ j =>
              apply List.mem_append_right
              exact ih j (by simpa using h) hnz

theorem cumprodFrom_length (c : ℚ) (l : List ℚ) :
    (cumprodFrom c l).length = l.length := by
  induction l generalizing c with
  | nil => rfl
  | cons x xs ih => simp [cumprodFrom, ih]

theorem cumprodFrom_getD_succ (c : ℚ) (l : List ℚ) (j : Nat)
    (h : j + 1 < l.length) :
    (cumprodFrom c l).getD (j + 1) 0 =
      (cumprodFrom c l).getD j 0 * l.getD (j + 1) 1 := by
  induction l generalizing c j with
  | nil => simp at h
  | cons x xs ih =>
      cases j with
      | zero =>
          cases xs with
          | nil => simp at h
          | cons y ys => rfl
      | succ j' =>
          show (cumprodFrom (c * x) xs).getD (j' + 1) 0 =
            (cumprodFrom (c * x) xs).getD j' 0 * xs.getD (j' + 1) 1
          exact ih _ j' (by simpa using h)

theorem getLast?_cons_ne {α : Type} (x : α) {l : List α} (h : l ≠ []) :
    (x :: l).getLast? = l.getLast? := by
  cases l with
  | nil => exact absurd rfl h
  | cons y ys => rw [List.getLast?_cons_cons]

theorem cumprodFrom_getLast (c : ℚ) (l : List ℚ) (h : l ≠ []) :
    (cumprodFrom c l).getLast? = some (c * l.prod) := by
  induction l generalizing c with
  | nil => exact absurd rfl h
  | cons x xs ih =>
      cases xs with
      | nil => simp [cumprodFrom]
      | cons y ys =>
          show ((c * x) :: cumprodFrom (c * x) (y :: ys)).getLast? =
            some (c * (x :: y :: ys).prod)
          have hne : cumprodFrom (c * x) (y :: ys) ≠ [] := by
            intro hc
            have hl := cumprodFrom_length (c * x) (y :: ys)
            rw [hc] at hl
            simp at hl
          rw [getLast?_cons_ne _ hne, ih (c * x) (by simp)]
          congr 1
          simp only [List.prod_cons]
          ring

theorem stratGo_length (tc : ℚ) (prev : List ℚ) (ws rs : List (List ℚ)) :
    (stratGo tc prev ws rs).length = min ws.length rs.length := by
  induction ws generalizing prev rs with
  | nil => cases rs <;> simp [stratGo]
  | cons w ws' ih =>
      cases rs with
      | nil => simp [stratGo]
      | cons r rs' => simp [stratGo, ih, Nat.succ_min_succ]

theorem stratGo_getD (tc : ℚ) (prev : List ℚ) (ws rs : List (List ℚ)) (j : Nat)
    (hw : j < ws.length) (hr : j < rs.length) :
    (stratGo tc prev ws rs).getD j 0 =
      dotRow (if j = 0 then prev else ws.getD (j - 1) []) (rs.getD j []) -
        halfL1 (ws.getD j []) (if j = 0 then prev else ws.getD (j - 1) []) * tc := by
  induction ws generalizing prev rs j with
  | nil => simp at hw
  | cons w ws' ih =>
      cases rs with
      | nil => simp at hr
      | cons r rs' =>
          cases j with
          | zero => rfl
          | succ j' =>
              show (stratGo tc w ws' rs').getD j' 0 = _
              rw [ih w rs' j' (by simpa using hw) (by simpa using hr)]
              cases j' with
              | zero => rfl
              | succ k => rfl

/-- The simulated dates form a sublist of the tail of the input dates. -/
theorem pctDropna_dates_sublist (rows : List (Date × List (Option ℚ))) :
    List.Sublist ((pctDropna rows).map Prod.fst) ((rows.map Prod.fst).tail) := by
  induction rows with
  | nil => simp [pctDropna]
  | cons r0 rest0 ih =>
      obtain ⟨d0, v0⟩ := r0
      cases rest0 with
      | nil => simp [pctDropna]
      | cons r1 rest =>
          obtain ⟨d1, v1⟩ := r1
          rw [show pctDropna ((d0, v0) :: (d1, v1) :: rest) =
              (if (pctRow v0 v1).all Option.isSome then [(d1, (pctRow v0 v1).filterMap id)]
                else []) ++ pctDropna ((d1, v1) :: rest) from rfl]
          have ih' := ih
          by_cases hall : (pctRow v0 v1).all Option.isSome
          · rw [if_pos hall]
            show List.Sublist (d1 :: (pctDropna ((d1, v1) :: rest)).map Prod.fst)
              (d1 :: rest.map Prod.fst)
            exact List.Sublist.cons₂ d1 (by simpa using ih')
          · rw [if_neg hall]
            show List.Sublist ((pctDropna ((d1, v1) :: rest)).map Prod.fst)
              (d1 :: rest.map Prod.fst)
            exact List.Sublist.cons d1 (by simpa using ih')

/-- A successful weights loop yields one row per simulated date, in order. -/
theorem weightsLoop_ok_dates (sig : Frame) (passets : List String)
    (scheme freq : String) (cap : ℚ) :
    ∀ (ds : List Date) (prev : Option Date) (cur : List ℚ)
      (wrows : List (Date × List ℚ)),
      weightsLoop sig passets scheme freq cap prev cur ds = .ok wrows →
      wrows.map Prod.fst = ds := by
  intro ds
  induction ds with
  | nil =>
      intro prev cur wrows h
      simp only [weightsLoop] at h
      injection h with h
      rw [← h]
      rfl
  | cons d ds' ih =>
      intro prev cur wrows h
      simp only [weightsLoop] at h
      cases hsr : shouldRebalance freq prev d with
      | error e => rw [hsr] at h; exact absurd h (by simp)
      | ok b =>
          rw [hsr] at h
          cases b with
          | true =>
              dsimp only [] at h
              cases hwr : weightRow passets sig.assets (findRow sig d) scheme cap with
              | error e => rw [hwr] at h; exact absurd h (by simp)
              | ok w =>
                  rw [hwr] at h
                  dsimp only [] at h
                  cases hrec : weightsLoop sig passets scheme freq cap (some d) w ds' with
                  | error e => rw [hrec] at h; exact absurd h (by simp)
                  | ok out =>
                      rw [hrec] at h
                      dsimp only [] at h
                      injection h with h
                      rw [← h]
                      show d :: out.map Prod.fst = d :: ds'
                      rw [ih _ _ _ hrec]
          | false =>
              dsimp only [] at h
              cases hrec : weightsLoop sig passets scheme freq cap prev cur ds' with
              | error e => rw [hrec] at h; exact absurd h (by simp)
              | ok out =>
                  rw [hrec] at h
                  dsimp only [] at h
                  injection h with h
                  rw [← h]
                  show d :: out.map Prod.fst = d :: ds'
                  rw [ih _ _ _ hrec]

/-- Destructuring a successful `run`: the bundle's fields in terms of the
pipeline stages. -/
theorem run_ok_elim (bt : Backtest) (scheme : String) (b : Bundle)
    (h : run bt scheme = .ok b) :
    ∃ wrows,
      weightsLoop bt.signals bt.prices.assets scheme bt.cfg.rebalanceFreq
        bt.cfg.maxLeverage none (zeroRow bt)
        ((pctDropna bt.prices.rows).map Prod.fst) = .ok wrows ∧
      b.positions = wrows ∧
      b.portfolioValue = pvOf bt wrows ∧
      b.returns = pctSeries (pvOf bt wrows) ∧
      b.finalValue = lastVal (pvOf bt wrows) 0 ∧
      b.initialCapital = bt.cfg.initialCapital := by
  unfold run at h
  cases hw : weightsLoop bt.signals bt.prices.assets scheme bt.cfg.rebalanceFreq
      bt.cfg.maxLeverage none (zeroRow bt)
      ((pctDropna bt.prices.rows).map Prod.fst) with
  | error e =>
      rw [hw] at h
      simp at h
  | ok wrows =>
      rw [hw] at h
      dsimp only [] at h
      injection h with h
      refine ⟨wrows, rfl, ?_, ?_, ?_, ?_, ?_⟩ <;> rw [← h]

theorem mkBacktest_ok_elim (p s : Frame) (cfg : Config) (bt : Backtest)
    (h : mkBacktest p s cfg = .ok bt) :
    bt.prices = restrictFrame p (alignDates p.index s.index) ∧
    bt.signals = restrictFrame s (alignDates p.index s.index) ∧
    bt.cfg = cfg ∧ alignDates p.index s.index ≠ [] := by
  by_cases hc : alignDates p.index s.index = []
  · simp [mkBacktest, hc] at h
  · simp only [mkBacktest, if_neg hc] at h
    injection h with h
    subst h
    exact ⟨rfl, rfl, rfl, hc⟩

theorem datesSorted_nodup {l : List Date} (h : DatesSorted l) : l.Nodup := by
  unfold DatesSorted at h
  refine h.imp ?_
  intro a b hlt heq
  rw [heq] at hlt
  exact lt_irrefl _ hlt

theorem datesSorted_filter {l : List Date} (h : DatesSorted l) (p : Date → Bool) :
    DatesSorted (l.filter p) := List.Pairwise.filter p h

theorem zip_getD {α β : Type} (l1 : List α) (l2 : List β) (j : Nat)
    (h1 : j < l1.length) (h2 : j < l2.length) (da : α) (db : β) :
    (l1.zip l2).getD j (da, db) = (l1.getD j da, l2.getD j db) := by
  induction l1 generalizing l2 j with
  | nil => simp at h1
  | cons x xs ih =>
      cases l2 with
      | nil => simp at h2
      | cons y ys =>
          cases j with
          | zero => rfl
          | succ j' => exact ih ys j' (by simpa using h1) (by simpa using h2)

theorem getD_map_lt {α β : Type} (f : α → β) (l : List α) (j : Nat)
    (h : j < l.length) (d : β) (d0 : α) :
    (l.map f).getD j d = f (l.getD j d0) := by
  rw [getD_eq_getElem _ _ (by simpa using h), getD_eq_getElem _ _ h]
  simp

theorem cumprodFrom_getD_zero (c : ℚ) (l : List ℚ) (h : l ≠ []) :
    (cumprodFrom c l).getD 0 0 = c * l.getD 0 1 := by
  cases l with
  | nil => exact absurd rfl h
  | cons x xs => rfl

/-- Length bookkeeping for the strategy pipeline. -/
theorem stratOf_length (bt : Backtest) (wrows : List (Date × List ℚ))
    (hlen : wrows.length = (pctDropna bt.prices.rows).length) :
    (stratOf bt wrows).length = (pctDropna bt.prices.rows).length := by
  unfold stratOf
  rw [stratGo_length]
  simp [hlen]

/-- The structural facts shared by all run-level claims: under the data
model's sorted-index hypothesis, and for a weights matrix whose dates are the
simulated dates, the aligned index is duplicate-free and nonempty, the
anchored series dates form a sublist of it, and the portfolio-value series is
the merge of the two. -/
theorem pvOf_eq_merge (p s : Frame) (cfg : Config) (bt : Backtest)
    (wrows : List (Date × List ℚ))
    (hsorted : DatesSorted (p.rows.map Prod.fst))
    (hmk : mkBacktest p s cfg = .ok bt)
    (hdates : wrows.map Prod.fst = (pctDropna bt.prices.rows).map Prod.fst) :
    bt.prices.index.Nodup ∧ bt.prices.index ≠ [] ∧
    List.Sublist ((anchoredOf bt wrows).map Prod.fst) bt.prices.index ∧
    pvOf bt wrows = ffillMerge bt.prices.index (anchoredOf bt wrows) 0 ∧
    (anchoredOf bt wrows).map Prod.fst =
      bt.prices.index.headD dD :: (pctDropna bt.prices.rows).map Prod.fst := by
  obtain ⟨hbp, hbs, hbc, hcne⟩ := mkBacktest_ok_elim p s cfg bt hmk
  have hA : bt.prices.index = alignDates p.index s.index := by
    rw [hbp, restrictFrame_index]
  have hAsorted : DatesSorted bt.prices.index := by
    rw [hA]
    exact datesSorted_filter hsorted _
  have hAnd : bt.prices.index.Nodup := datesSorted_nodup hAsorted
  have hAne : bt.prices.index ≠ [] := by
    rw [hA]
    exact hcne
  have hwlen : wrows.length = (pctDropna bt.prices.rows).length := by
    have h1 := congrArg List.length hdates
    simpa using h1
  have hpvlen : (cumprodFrom bt.cfg.initialCapital
      ((stratOf bt wrows).map (1 + ·))).length = (pctDropna bt.prices.rows).length := by
    rw [cumprodFrom_length, List.length_map, stratOf_length bt wrows hwlen]
  have hzipfst : (((pctDropna bt.prices.rows).map Prod.fst).zip
      (cumprodFrom bt.cfg.initialCapital ((stratOf bt wrows).map (1 + ·)))).map Prod.fst =
      (pctDropna bt.prices.rows).map Prod.fst := by
    apply List.map_fst_zip
    rw [hpvlen]
    simp
  have hanch : (anchoredOf bt wrows).map Prod.fst =
      bt.prices.index.headD dD :: (pctDropna bt.prices.rows).map Prod.fst := by
    unfold anchoredOf
    simp only [List.map_cons]
    rw [hzipfst]
  have hsub : List.Sublist ((anchoredOf bt wrows).map Prod.fst) bt.prices.index := by
    rw [hanch]
    cases hcase : bt.prices.index with
    | nil => exact absurd hcase hAne
    | cons a rest =>
        have hS : List.Sublist ((pctDropna bt.prices.rows).map Prod.fst) rest := by
          have h1 := pctDropna_dates_sublist bt.prices.rows
          have h2 : bt.prices.rows.map Prod.fst = a :: rest := by
            rw [← hcase]
            rfl
          rw [h2] at h1
          simpa using h1
        simpa [hcase] using List.Sublist.cons₂ a hS
  refine ⟨hAnd, hAne, hsub, ?_, hanch⟩
  unfold pvOf
  exact reindexFfill_eq_ffillMerge _ _ _ hAnd hsub

/-- The entry `k + 1` of the anchored series is the `k`-th simulated date
paired with the `k`-th compounded value. -/
theorem anchoredOf_getD_succ (bt : Backtest) (wrows : List (Date × List ℚ))
    (hlen : wrows.length = (pctDropna bt.prices.rows).length)
    (k : Nat) (hk : k < (pctDropna bt.prices.rows).length) :
    (anchoredOf bt wrows).getD (k + 1) (dD, 0) =
      (((pctDropna bt.prices.rows).map Prod.fst).getD k dD,
        (cumprodFrom bt.cfg.initialCapital ((stratOf bt wrows).map (1 + ·))).getD k 0) := by
  unfold anchoredOf
  show (((pctDropna bt.prices.rows).map Prod.fst).zip
      (cumprodFrom bt.cfg.initialCapital ((stratOf bt wrows).map (1 + ·)))).getD k (dD, 0) = _
  apply zip_getD
  · simpa using hk
  · rw [cumprodFrom_length, List.length_map, stratOf_length bt wrows hlen]
    exact hk

/-- The value carried at entry `k` of the anchored series: the initial
capital at the anchor, the compounded value afterwards. -/
theorem anchoredOf_nthVal (bt : Backtest) (wrows : List (Date × List ℚ))
    (hlen : wrows.length = (pctDropna bt.prices.rows).length)
    (k : Nat) (hk : k < (pctDropna bt.prices.rows).length + 1) :
    nthVal (anchoredOf bt wrows) k =
      if k = 0 then bt.cfg.initialCapital
      else (cumprodFrom bt.cfg.initialCapital ((stratOf bt wrows).map (1 + ·))).getD (k - 1) 0 := by
  cases k with
  | zero => rfl
  | succ k' =>
      rw [if_neg (by omega)]
      unfold nthVal
      rw [anchoredOf_getD_succ bt wrows hlen k' (by omega)]
      simp

/-- The `k`-th strategy return, in terms of the weights matrix rows. -/
theorem stratOf_getD (bt : Backtest) (wrows : List (Date × List ℚ))
    (hlen : wrows.length = (pctDropna bt.prices.rows).length)
    (k : Nat) (hk : k < (pctDropna bt.prices.rows).length) :
    (stratOf bt wrows).getD k 0 =
      dotRow (if k = 0 then zeroRow bt else (wrows.getD (k - 1) (dD, [])).2)
          (((pctDropna bt.prices.rows).getD k (dD, [])).2) -
        halfL1 ((wrows.getD k (dD, [])).2)
          (if k = 0 then zeroRow bt else (wrows.getD (k - 1) (dD, [])).2) *
          bt.cfg.transactionCost := by
  unfold stratOf
  rw [stratGo_getD _ _ _ _ k (by simpa [hlen] using hk) (by simpa using hk)]
  have hws : (wrows.map Prod.snd).getD k [] = (wrows.getD k (dD, [])).2 :=
    getD_map_lt _ _ _ (by omega) _ _
  have hrs : ((pctDropna bt.prices.rows).map Prod.snd).getD k [] =
      ((pctDropna bt.prices.rows).getD k (dD, [])).2 :=
    getD_map_lt _ _ _ hk _ _
  rw [hws, hrs]
  cases k with
  | zero => rfl
  | succ k' =>
      have hws' : (wrows.map Prod.snd).getD k' [] = (wrows.getD k' (dD, [])).2 :=
        getD_map_lt _ _ _ (by omega) _ _
      simp only [if_neg (Nat.succ_ne_zero k'), Nat.add_sub_cancel]
      rw [hws']

/-- C1: for every successful run on a constructed engine (with the data
model's sorted price index), (a) every entry of the bundle's return series
satisfies the compounding identity against consecutive portfolio values, and
(b) on every simulated date the portfolio value compounds the strategy
return: the dot product of the previous weight row with the day's asset
returns, minus turnover (half the L1 distance between the weight rows, with
an all-zero day-0 prior row) times the transaction cost. -/
theorem claim_C1 (p s : Frame) (cfg : Config) (bt : Backtest) (scheme : String)
    (b : Bundle) (hsorted : DatesSorted (p.rows.map Prod.fst))
    (hmk : mkBacktest p s cfg = .ok bt) (hrun : run bt scheme = .ok b) :
    (∀ d r, (d, r) ∈ b.returns →
      ∃ i, i + 1 < b.portfolioValue.length ∧
        nthDate b.portfolioValue (i + 1) = d ∧
        nthVal b.portfolioValue (i + 1) = nthVal b.portfolioValue i * (1 + r)) ∧
    (∀ j, j < (pctDropna bt.prices.rows).length →
      ∃ i, i + 1 < b.portfolioValue.length ∧
        nthDate b.portfolioValue (i + 1) = ((pctDropna bt.prices.rows).getD j (dD, [])).1 ∧
        nthVal b.portfolioValue (i + 1) = nthVal b.portfolioValue i *
          (1 + (dotRow (if j = 0 then zeroRow bt else (b.positions.getD (j - 1) (dD, [])).2)
                  (((pctDropna bt.prices.rows).getD j (dD, [])).2) -
                halfL1 ((b.positions.getD j (dD, [])).2)
                  (if j = 0 then zeroRow bt else (b.positions.getD (j - 1) (dD, [])).2) *
                  bt.cfg.transactionCost))) := by
  obtain ⟨wrows, hw, hpos, hpv, hret, hfin, hK⟩ := run_ok_elim bt scheme b hrun
  have hdates := weightsLoop_ok_dates _ _ _ _ _ _ _ _ _ hw
  have hwlen : wrows.length = (pctDropna bt.prices.rows).length := by
    have h1 := congrArg List.length hdates
    simpa using h1
  constructor
  · intro d r hmem
    rw [hret] at hmem
    rw [hpv]
    obtain ⟨i, h1, h2, h3, h4⟩ := pctSeries_mem _ d r hmem
    exact ⟨i, h1, h2, h4⟩
  · intro j hj
    obtain ⟨hnd, hne, hsub, hmerge, hanch⟩ :=
      pvOf_eq_merge p s cfg bt wrows hsorted hmk hdates
    have hanchlen : (anchoredOf bt wrows).length =
        (pctDropna bt.prices.rows).length + 1 := by
      have := congrArg List.length hanch
      simpa using this
    obtain ⟨p', hp', hpe, hpre⟩ :=
      ffillMerge_chain bt.prices.index (anchoredOf bt wrows) 0 j hsub (by omega)
    rw [← hmerge] at hp' hpe hpre
    have hstrat := stratOf_getD bt wrows hwlen j hj
    have hfactget : ∀ k, k < (pctDropna bt.prices.rows).length →
        ((stratOf bt wrows).map (1 + ·)).getD k 1 = 1 + (stratOf bt wrows).getD k 0 := by
      intro k hk
      exact getD_map_lt _ _ _ (by rw [stratOf_length bt wrows hwlen]; exact hk) _ _
    refine ⟨p', ?_, ?_, ?_⟩
    · rw [hpv]
      exact hp'
    · rw [hpv]
      unfold nthDate
      rw [hpe, anchoredOf_getD_succ bt wrows hwlen j hj]
      exact getD_map_lt _ _ _ hj _ _
    · rw [hpv, hpos]
      have hLHS : nthVal (pvOf bt wrows) (p' + 1) =
          (cumprodFrom bt.cfg.initialCapital ((stratOf bt wrows).map (1 + ·))).getD j 0 := by
        unfold nthVal
        rw [hpe, anchoredOf_getD_succ bt wrows hwlen j hj]
      have hprev : nthVal (pvOf bt wrows) p' = nthVal (anchoredOf bt wrows) j := hpre
      rw [hLHS, hprev, anchoredOf_nthVal bt wrows hwlen j (by omega)]
      cases j with
      | zero =>
          rw [if_pos rfl]
          have hne0 : (stratOf bt wrows).map (1 + ·) ≠ [] := by
            intro hc
            have h0 := congrArg List.length hc
            rw [List.length_map, stratOf_length bt wrows hwlen] at h0
            simp only [List.length_nil] at h0
            omega
          rw [cumprodFrom_getD_zero _ _ hne0, hfactget 0 hj, hstrat]
      | succ k =>
          rw [if_neg (Nat.succ_ne_zero k)]
          have hsucc := cumprodFrom_getD_succ bt.cfg.initialCapital
            ((stratOf bt wrows).map (1 + ·)) k
            (by rw [List.length_map, stratOf_length bt wrows hwlen]; exact hj)
          rw [hsucc, hfactget (k + 1) hj, hstrat]
          simp only [Nat.add_sub_cancel]

section
attribute [local semireducible] Rat.mul Rat.inv Rat.add Rat.sub

/-- C1 witness: the compounding identities instantiated at a concrete
two-date run. -/
theorem claim_C1_witness :
    (DatesSorted (exPrices.rows.map Prod.fst) ∧
      mkBacktest exPrices exSignals exCfg = .ok exBT ∧
      run exBT "long_short" = .ok exBundleLS) ∧
    ((∀ d r, (d, r) ∈ exBundleLS.returns →
      ∃ i, i + 1 < exBundleLS.portfolioValue.length ∧
        nthDate exBundleLS.portfolioValue (i + 1) = d ∧
        nthVal exBundleLS.portfolioValue (i + 1) =
          nthVal exBundleLS.portfolioValue i * (1 + r)) ∧
    (∀ j, j < (pctDropna exBT.prices.rows).length →
      ∃ i, i + 1 < exBundleLS.portfolioValue.length ∧
        nthDate exBundleLS.portfolioValue (i + 1) =
          ((pctDropna exBT.prices.rows).getD j (dD, [])).1 ∧
        nthVal exBundleLS.portfolioValue (i + 1) = nthVal exBundleLS.portfolioValue i *
          (1 + (dotRow (if j = 0 then zeroRow exBT
                    else (exBundleLS.positions.getD (j - 1) (dD, [])).2)
                  (((pctDropna exBT.prices.rows).getD j (dD, [])).2) -
                halfL1 ((exBundleLS.positions.getD j (dD, [])).2)
                  (if j = 0 then zeroRow exBT
                    else (exBundleLS.positions.getD (j - 1) (dD, [])).2) *
                  exBT.cfg.transactionCost)))) :=
  ⟨⟨by decide, by decide, by decide⟩,
    claim_C1 exPrices exSignals exCfg exBT "long_short" exBundleLS
      (by decide) (by decide) (by decide)⟩

end

/-! ### Claim C10 -/

/-- A date is simulated iff it is the second of a consecutive pair of rows
whose per-asset returns are all defined. -/
theorem pctDropna_mem_iff (rows : List (Date × List (Option ℚ))) (d : Date) :
    d ∈ (pctDropna rows).map Prod.fst ↔
      ∃ i, i + 1 < rows.length ∧ (rows.getD (i + 1) (dD, [])).1 = d ∧
        (pctRow ((rows.getD i (dD, [])).2) ((rows.getD (i + 1) (dD, [])).2)).all
          Option.isSome = true := by
  induction rows with
  | nil =>
      simp [pctDropna]
  | cons r0 rest0 ih =>
      obtain ⟨d0, v0⟩ := r0
      cases rest0 with
      | nil =>
          simp only [pctDropna, List.map_nil, List.not_mem_nil, false_iff]
          rintro ⟨i, hi, _, _⟩
          simp at hi
      | cons r1 rest =>
          obtain ⟨d1, v1⟩ := r1
          rw [show pctDropna ((d0, v0) :: (d1, v1) :: rest) =
              (if (pctRow v0 v1).all Option.isSome then [(d1, (pctRow v0 v1).filterMap id)]
                else []) ++ pctDropna ((d1, v1) :: rest) from rfl]
          rw [List.map_append, List.mem_append]
          constructor
          · rintro (h1 | h2)
            · by_cases hall : (pctRow v0 v1).all Option.isSome
              · rw [if_pos hall] at h1
                simp only [List.map_cons, List.map_nil, List.mem_singleton] at h1
                exact ⟨0, by simp, h1.symm ▸ rfl, hall⟩
              · rw [if_neg hall] at h1
                simp at h1
            · obtain ⟨i, hi, hdate, hall⟩ := ih.mp h2
              exact ⟨i + 1, by simpa using hi, hdate, hall⟩
          · rintro ⟨i, hi, hdate, hall⟩
            cases i with
            | zero =>
                left
                simp only [List.getD_cons_zero, List.getD_cons_succ] at hdate hall
                rw [if_pos hall]
                simp only [List.map_cons, List.map_nil, List.mem_singleton]
                exact hdate.symm
            | succ i' =>
                right
                simp only [List.getD_cons_succ] at hdate hall
                exact ih.mpr ⟨i', by simpa using hi, hdate, hall⟩

/-- C10 (amended): the simulated dates are exactly the aligned dates whose
per-asset daily returns are all defined (any missing price removes the whole
date); a removed date after the first still appears in the portfolio-value
series carrying the previous value forward, and its bundle return is exactly
0 provided the carried previous value is nonzero (when it is exactly zero the
pandas return is 0/0, i.e. NaN, and the entry is dropped — see the
counterexample). -/
theorem claim_C10 (p s : Frame) (cfg : Config) (bt : Backtest) (scheme : String)
    (b : Bundle) (hsorted : DatesSorted (p.rows.map Prod.fst))
    (hmk : mkBacktest p s cfg = .ok bt) (hrun : run bt scheme = .ok b) :
    (∀ d, d ∈ (pctDropna bt.prices.rows).map Prod.fst ↔
      ∃ i, i + 1 < bt.prices.rows.length ∧
        (bt.prices.rows.getD (i + 1) (dD, [])).1 = d ∧
        (pctRow ((bt.prices.rows.getD i (dD, [])).2)
          ((bt.prices.rows.getD (i + 1) (dD, [])).2)).all Option.isSome = true) ∧
    (∀ i, i + 1 < bt.prices.index.length →
      bt.prices.index.getD (i + 1) dD ∉ (pctDropna bt.prices.rows).map Prod.fst →
      nthVal b.portfolioValue (i + 1) = nthVal b.portfolioValue i ∧
      (nthVal b.portfolioValue i ≠ 0 →
        (bt.prices.index.getD (i + 1) dD, (0 : ℚ)) ∈ b.returns)) := by
  obtain ⟨wrows, hw, hpos, hpv, hret, hfin, hK⟩ := run_ok_elim bt scheme b hrun
  have hdates := weightsLoop_ok_dates _ _ _ _ _ _ _ _ _ hw
  refine ⟨fun d => pctDropna_mem_iff bt.prices.rows d, ?_⟩
  intro i hi hnot
  obtain ⟨hnd, hne, hsub, hmerge, hanch⟩ :=
    pvOf_eq_merge p s cfg bt wrows hsorted hmk hdates
  have hnothead : bt.prices.index.getD (i + 1) dD ≠ bt.prices.index.headD dD := by
    cases hcase : bt.prices.index with
    | nil => rw [hcase] at hi; simp at hi
    | cons a rest =>
        rw [hcase] at hi hnd
        have hstep : (a :: rest).getD (i + 1) dD = rest.getD i dD := rfl
        have hmem : (a :: rest).getD (i + 1) dD ∈ rest := by
          rw [hstep]
          exact getD_mem rest dD (by simpa using hi)
        intro hceq
        have hanot : a ∉ rest := (List.nodup_cons.mp hnd).1
        rw [show (a :: rest).headD dD = a from rfl] at hceq
        rw [hceq] at hmem
        exact hanot hmem
  have hnotin : bt.prices.index.getD (i + 1) dD ∉ (anchoredOf bt wrows).map Prod.fst := by
    rw [hanch]
    intro hc
    rcases List.mem_cons.mp hc with hc1 | hc2
    · exact hnothead hc1
    · exact hnot hc2
  have hcarry : nthVal (pvOf bt wrows) (i + 1) = nthVal (pvOf bt wrows) i := by
    unfold pvOf
    rw [nthVal_reindexFfill_succ _ _ _ i hi, findVal_eq_none hnotin]
    rfl
  have hpvlen : (pvOf bt wrows).length = bt.prices.index.length := by
    unfold pvOf
    exact reindexFfill_length _ _ _
  refine ⟨by rw [hpv]; exact hcarry, ?_⟩
  intro hnz
  rw [hpv] at hnz
  rw [hret]
  have hmem := pctSeries_of_pos (pvOf bt wrows) i (by omega) hnz
  have hd : nthDate (pvOf bt wrows) (i + 1) = bt.prices.index.getD (i + 1) dD := by
    unfold pvOf
    exact nthDate_reindexFfill _ _ _ _ hi
  rw [hd, hcarry, div_self hnz] at hmem
  simpa using hmem

section
attribute [local semireducible] Rat.mul Rat.inv Rat.add Rat.sub

/-- C10 counterexample: in the zero-portfolio-value scenario, day 3 is an
aligned date removed from simulation (missing price) with a predecessor, it
appears in the portfolio-value series, but the bundle has no return entry for
it at all (the carried previous value is exactly 0, so the pandas return is
NaN and dropped) — its bundle return is not 0 as claimed. -/
theorem claim_C10_counterexample :
    mkBacktest exPricesNaN exSignalsNaN exCfgNaN = .ok exBTNaN ∧
    run exBTNaN "long_short" = .ok exBundleNaN ∧
    exDate3 ∈ exPricesNaN.index ∧
    exDate3 ∉ (pctDropna exPricesNaN.rows).map Prod.fst ∧
    exDate3 ∈ exBundleNaN.portfolioValue.map Prod.fst ∧
    exBundleNaN.returns.countP (fun e => e.1 = exDate3) = 0 := by
  decide

/-- C10 witness: the amended statement at the mid-NaN scenario, where day 2
is removed from simulation and carries the day-1 value with return 0. -/
theorem claim_C10_witness :
    (DatesSorted (exPricesMid.rows.map Prod.fst) ∧
      mkBacktest exPricesMid exSignalsMid exCfg = .ok exBTMid ∧
      run exBTMid "long_short" = .ok exBundleMid) ∧
    ((∀ d, d ∈ (pctDropna exBTMid.prices.rows).map Prod.fst ↔
      ∃ i, i + 1 < exBTMid.prices.rows.length ∧
        (exBTMid.prices.rows.getD (i + 1) (dD, [])).1 = d ∧
        (pctRow ((exBTMid.prices.rows.getD i (dD, [])).2)
          ((exBTMid.prices.rows.getD (i + 1) (dD, [])).2)).all Option.isSome = true) ∧
    (∀ i, i + 1 < exBTMid.prices.index.length →
      exBTMid.prices.index.getD (i + 1) dD ∉ (pctDropna exBTMid.prices.rows).map Prod.fst →
      nthVal exBundleMid.portfolioValue (i + 1) = nthVal exBundleMid.portfolioValue i ∧
      (nthVal exBundleMid.portfolioValue i ≠ 0 →
        (exBTMid.prices.index.getD (i + 1) dD, (0 : ℚ)) ∈ exBundleMid.returns))) :=
  ⟨⟨by decide, by decide, by decide⟩,
    claim_C10 exPricesMid exSignalsMid exCfg exBTMid "long_short" exBundleMid
      (by decide) (by decide) (by decide)⟩

end

/-! ### C7: the single-asset rank scheme -/

section
attribute [local semireducible] Rat.mul Rat.inv Rat.add Rat.sub

/-- The decile thresholds of the one-entry rank list `[1]` both equal 1. -/
theorem quantileLinear_single_tenth : quantileLinear [1] (1 / 10) = 1 := by decide

end

/-- The rank of the single entry of a one-entry cross-section is 1. -/
theorem rankOf_single (x : ℚ) : rankOf [x] x = 1 := by
  have h1 : [x].countP (fun y => decide (y < x)) = 0 := by simp
  have h2 : [x].countP (fun y => decide (y = x)) = 1 := by simp
  unfold rankOf
  rw [h1, h2]
  norm_num

/-- On a one-entry cross-section the short threshold equals the single rank,
so the short assignment overwrites the long one: the base weight is -1. -/
theorem rankBase_single (x : ℚ) : rankBase [x] x = -1 := by
  have hlist : rankList [x] = [rankOf [x] x] := rfl
  show (if rankOf [x] x ≤ quantileLinear (rankList [x]) (1 / 10) then (-1 : ℚ)
    else if quantileLinear (rankList [x]) (9 / 10) ≤ rankOf [x] x then 1 else 0) = -1
  rw [hlist, rankOf_single, quantileLinear_single_tenth]
  norm_num

/-- The single entry is counted on the short side. -/
theorem shortCount_single (x : ℚ) : shortCount [x] = 1 := by
  unfold shortCount
  simp [rankBase_single]

/-- After normalization the single entry's weight is -1. -/
theorem rankNormalized_single (x : ℚ) : rankNormalized [x] x = -1 := by
  have hb := rankBase_single x
  simp only [rankNormalized, hb, shortCount_single]
  norm_num

/-- When the total absolute weight does not exceed the cap, the leverage
constraint leaves the weight function unchanged. -/
theorem scaleIfAbove_of_le (cap : ℚ) (valid : List ℚ) (f : ℚ → ℚ)
    (h : (valid.map fun y => rabs (f y)).sum ≤ cap) : scaleIfAbove cap valid f = f := by
  simp only [scaleIfAbove]
  rw [if_neg (not_lt.mpr h)]

/-- The full rank-scheme weight of the single entry is -1 whenever the cap is
at least 1. -/
theorem rankWeights_single (cap x : ℚ) (hcap : 1 ≤ cap) :
    rankWeights cap [x] x = -1 := by
  have htot : ([x].map fun y => rabs (rankNormalized [x] y)).sum = 1 := by
    simp [rankNormalized_single, rabs]
  unfold rankWeights
  rw [scaleIfAbove_of_le _ _ _ (htot ▸ hcap), rankNormalized_single]

/-- One weight row of the single-asset panel under the rank scheme. -/
theorem weightRow_rank_single (a : String) (x cap : ℚ) (hcap : 1 ≤ cap) :
    weightRow [a] [a] [some x] "rank" cap = .ok [-1] := by
  have hval : (([some x] : List (Option ℚ)).filterMap id) = [x] := rfl
  have hcw : calcWeightFun "rank" cap [x] = .ok (rankWeights cap [x]) := rfl
  unfold weightRow
  rw [hval, if_neg (by simp : ¬([x] = ([] : List ℚ))), hcw]
  dsimp only []
  rw [show ([a].map fun b =>
      match lookupCol [a] [some x] b with
      | some y => rankWeights cap [x] y
      | none => 0) = [rankWeights cap [x] x] from by simp [lookupCol]]
  rw [rankWeights_single cap x hcap]

/-- The weights loop of the single-asset rank-scheme engine: it never fails
and every produced row is `[-1]`. -/
theorem weightsLoop_rank_single (sig : Frame) (a : String) (cap : ℚ)
    (hcap : 1 ≤ cap) (hsa : sig.assets = [a]) :
    ∀ (ds : List Date) (prev : Option Date) (cur : List ℚ),
      (∀ d ∈ ds, ∃ x, findRow sig d = [some x]) →
      ∃ out, weightsLoop sig [a] "rank" "D" cap prev cur ds = .ok out ∧
        ∀ e ∈ out, e.2 = [-1] := by
  intro ds
  induction ds with
  | nil =>
      intro prev cur _
      exact ⟨[], rfl, by simp⟩
  | cons d ds' ih =>
      intro prev cur hrow
      obtain ⟨x, hx⟩ := hrow d (by simp)
      obtain ⟨out', hout', hall'⟩ :=
        ih (some d) [(-1 : ℚ)] (fun d' hd' => hrow d' (List.mem_cons_of_mem _ hd'))
      have hsr : shouldRebalance "D" prev d = .ok true := by
        cases prev with
        | none => rfl
        | some p => simp [shouldRebalance]
      have hwr : weightRow [a] sig.assets (findRow sig d) "rank" cap = .ok [-1] := by
        rw [hsa, hx]
        exact weightRow_rank_single a x cap hcap
      refine ⟨(d, [-1]) :: out', ?_, ?_⟩
      · show weightsLoop sig [a] "rank" "D" cap prev cur (d :: ds') = _
        unfold weightsLoop
        rw [hsr]
        dsimp only []
        rw [hwr]
        dsimp only []
        rw [hout']
      · intro e he
        rcases List.mem_cons.mp he with h | h
        · rw [h]
        · exact hall' e h

/-- C7 (amended): for a single-asset engine under the rank scheme (daily
rebalancing, leverage cap at least 1, every simulated date carrying a non-NaN
signal), `run` does not crash, but the asset's weight on every simulated date
is -1, not 0: the two decile thresholds coincide at the single rank and the
short assignment overwrites the long one, so the degenerate decile logic does
not fall through to an all-zero weight vector. -/
theorem claim_C7 (bt : Backtest) (a : String)
    (hpa : bt.prices.assets = [a]) (hsa : bt.signals.assets = [a])
    (hfreq : bt.cfg.rebalanceFreq = "D") (hcap : 1 ≤ bt.cfg.maxLeverage)
    (hrows : ∀ d ∈ (pctDropna bt.prices.rows).map Prod.fst,
      ∃ x, findRow bt.signals d = [some x]) :
    ∃ b, run bt "rank" = .ok b ∧ ∀ e ∈ b.positions, e.2 = [-1] := by
  obtain ⟨out, hout, hall⟩ :=
    weightsLoop_rank_single bt.signals a bt.cfg.maxLeverage hcap hsa
      ((pctDropna bt.prices.rows).map Prod.fst) none (zeroRow bt) hrows
  refine ⟨{ portfolioValue := pvOf bt out
            returns := pctSeries (pvOf bt out)
            positions := out
            initialCapital := bt.cfg.initialCapital
            finalValue := lastVal (pvOf bt out) 0
            totalReturn := lastVal (pvOf bt out) 0 / bt.cfg.initialCapital - 1 },
    ?_, hall⟩
  unfold run
  rw [hpa, hfreq, hout]

section
attribute [local semireducible] Rat.mul Rat.inv Rat.add Rat.sub

/-- C7 counterexample: on the concrete single-asset engine the rank-scheme
run succeeds with weight -1 (not 0) on both simulated dates. -/
theorem claim_C7_counterexample :
    ((run exBT1 "rank").toOption.map Bundle.positions) =
      some [(exDate1, [-1]), (exDate2, [-1])] ∧ ¬((-1 : ℚ) = 0) := by
  decide

/-- C7 witness: the amended statement at the concrete single-asset engine. -/
theorem claim_C7_witness :
    ∃ b, run exBT1 "rank" = .ok b ∧ ∀ e ∈ b.positions, e.2 = [-1] :=
  claim_C7 exBT1 "A" (by decide) (by decide) (by decide) (by decide)
    (by
      intro d hd
      rw [show (pctDropna exBT1.prices.rows).map Prod.fst = [exDate1, exDate2]
        from by decide] at hd
      rcases List.mem_cons.mp hd with h | h
      · subst h
        exact ⟨2, by decide⟩
      · rw [List.mem_singleton.mp h]
        exact ⟨3, by decide⟩)

end

/-! ### C5: unsupported rebalance frequency -/

/-- A valid scheme never makes the weight-row computation fail. -/
theorem weightRow_valid_ok (passets sassets : List String) (sigRow : List (Option ℚ))
    (scheme : String) (cap : ℚ)
    (hs : scheme = "rank" ∨ scheme = "zscore" ∨ scheme = "long_short") :
    ∃ w, weightRow passets sassets sigRow scheme cap = .ok w := by
  simp only [weightRow]
  by_cases hv : sigRow.filterMap id = []
  · rw [if_pos hv]
    exact ⟨_, rfl⟩
  · rw [if_neg hv]
    have hcw : ∃ f, calcWeightFun scheme cap (sigRow.filterMap id) = .ok f := by
      rcases hs with h | h | h <;> subst h
      · exact ⟨_, rfl⟩
      · exact ⟨_, rfl⟩
      · exact ⟨_, rfl⟩
    obtain ⟨f, hf⟩ := hcw
    rw [hf]
    exact ⟨_, rfl⟩

/-- With a previous rebalance date recorded, an unsupported frequency makes
`_should_rebalance` raise, naming the offending value and the supported
options. -/
theorem shouldRebalance_bad (freq : String) (p d : Date)
    (hf : freq ≠ "D" ∧ freq ≠ "W" ∧ freq ≠ "M") :
    shouldRebalance freq (some p) d = .error (.unsupportedFrequency
      ("Unsupported rebalance frequency: " ++ freq ++
        ". Supported frequencies: D (daily), W (weekly), M (monthly)")) := by
  simp [shouldRebalance, hf.1, hf.2.1, hf.2.2]

/-- Once a first rebalance has happened, an unsupported frequency fails the
weights loop at the very next simulated date. -/
theorem weightsLoop_badfreq_cons (sig : Frame) (passets : List String)
    (scheme freq : String) (cap : ℚ) (p d : Date) (rest : List Date) (cur : List ℚ)
    (hf : freq ≠ "D" ∧ freq ≠ "W" ∧ freq ≠ "M") :
    weightsLoop sig passets scheme freq cap (some p) cur (d :: rest) =
      .error (.unsupportedFrequency
        ("Unsupported rebalance frequency: " ++ freq ++
          ". Supported frequencies: D (daily), W (weekly), M (monthly)")) := by
  unfold weightsLoop
  rw [shouldRebalance_bad freq p d hf]

/-- With at least two simulated dates, an unsupported frequency fails the
whole weights loop (the first date rebalances unconditionally, before the
frequency is ever inspected). -/
theorem weightsLoop_badfreq (sig : Frame) (passets : List String)
    (scheme freq : String) (cap : ℚ)
    (hs : scheme = "rank" ∨ scheme = "zscore" ∨ scheme = "long_short")
    (hf : freq ≠ "D" ∧ freq ≠ "W" ∧ freq ≠ "M")
    (d1 d2 : Date) (rest : List Date) (cur : List ℚ) :
    weightsLoop sig passets scheme freq cap none cur (d1 :: d2 :: rest) =
      .error (.unsupportedFrequency
        ("Unsupported rebalance frequency: " ++ freq ++
          ". Supported frequencies: D (daily), W (weekly), M (monthly)")) := by
  obtain ⟨w, hw⟩ := weightRow_valid_ok passets sig.assets (findRow sig d1) scheme cap hs
  show weightsLoop sig passets scheme freq cap none cur (d1 :: d2 :: rest) = _
  unfold weightsLoop
  rw [show shouldRebalance freq none d1 = .ok true from rfl]
  dsimp only []
  rw [hw]
  dsimp only []
  rw [weightsLoop_badfreq_cons sig passets scheme freq cap d1 d2 rest w hf]

/-- C5 (amended): no rebalance-frequency validation happens at construction
time — construction succeeds for every frequency value whenever the date
intersection is non-empty — and for a frequency outside {D, W, M} a
subsequent `run` with a valid scheme raises the unsupported-frequency error
(naming the offending value and the three supported options) as soon as there
are at least two simulated dates.  The error is not raised on the first
simulated date: the first date rebalances unconditionally before the
frequency is inspected, so a panel with exactly one simulated date runs to
completion (see the counterexample). -/
theorem claim_C5 (p s : Frame) (cfg : Config) (scheme : String)
    (hne : alignDates p.index s.index ≠ [])
    (hs : scheme = "rank" ∨ scheme = "zscore" ∨ scheme = "long_short")
    (hf : cfg.rebalanceFreq ≠ "D" ∧ cfg.rebalanceFreq ≠ "W" ∧ cfg.rebalanceFreq ≠ "M") :
    ∃ bt, mkBacktest p s cfg = .ok bt ∧
      ∀ d1 d2 rest, (pctDropna bt.prices.rows).map Prod.fst = d1 :: d2 :: rest →
        run bt scheme = .error (.unsupportedFrequency
          ("Unsupported rebalance frequency: " ++ cfg.rebalanceFreq ++
            ". Supported frequencies: D (daily), W (weekly), M (monthly)")) := by
  refine ⟨⟨restrictFrame p (alignDates p.index s.index),
    restrictFrame s (alignDates p.index s.index), cfg⟩, ?_, ?_⟩
  · unfold mkBacktest
    rw [if_neg hne]
  · intro d1 d2 rest hds
    unfold run
    rw [hds]
    rw [weightsLoop_badfreq _ _ scheme cfg.rebalanceFreq cfg.maxLeverage hs hf d1 d2 rest _]

section
attribute [local semireducible] Rat.mul Rat.inv Rat.add Rat.sub

/-- C5 counterexample: an engine with the unsupported frequency "X" and a
non-empty aligned panel with exactly one simulated date does not raise at all
— `run` completes and returns the bundle, contradicting the claim that the
error is raised on the first simulated date of every non-empty panel. -/
theorem claim_C5_counterexample :
    mkBacktest exPrices exSignals exCfgX = .ok exBTX ∧
    ((pctDropna exBTX.prices.rows).map Prod.fst).length = 1 ∧
    run exBTX "long_short" = .ok exBundleLS ∧
    exCfgX.rebalanceFreq ≠ "D" ∧ exCfgX.rebalanceFreq ≠ "W" ∧
      exCfgX.rebalanceFreq ≠ "M" := by
  decide

/-- C5 witness: the amended statement at the single-asset three-day panel
(two simulated dates) with frequency "X" and the rank scheme. -/
theorem claim_C5_witness :
    (alignDates exPrices1.index exSignals1.index ≠ [] ∧
      exCfgX.rebalanceFreq ≠ "D" ∧ exCfgX.rebalanceFreq ≠ "W" ∧
        exCfgX.rebalanceFreq ≠ "M") ∧
    ∃ bt, mkBacktest exPrices1 exSignals1 exCfgX = .ok bt ∧
      ∀ d1 d2 rest, (pctDropna bt.prices.rows).map Prod.fst = d1 :: d2 :: rest →
        run bt "rank" = .error (.unsupportedFrequency
          ("Unsupported rebalance frequency: " ++ exCfgX.rebalanceFreq ++
            ". Supported frequencies: D (daily), W (weekly), M (monthly)")) :=
  ⟨⟨by decide, by decide, by decide, by decide⟩,
    claim_C5 exPrices1 exSignals1 exCfgX "rank" (by decide) (Or.inl rfl)
      ⟨by decide, by decide, by decide⟩⟩

end

/-! ### C6: unknown weight scheme -/

/-- An unrecognized scheme makes the weight-row computation fail with the
unknown-scheme error — provided the cross-section has at least one non-NaN
signal (an all-NaN cross-section returns the zero row before the scheme is
ever inspected). -/
theorem weightRow_unknown (passets sassets : List String) (sigRow : List (Option ℚ))
    (scheme : String) (cap : ℚ)
    (hs : scheme ≠ "rank" ∧ scheme ≠ "zscore" ∧ scheme ≠ "long_short")
    (hval : sigRow.filterMap id ≠ []) :
    weightRow passets sassets sigRow scheme cap =
      .error (.unknownScheme ("Unknown weight scheme: " ++ scheme)) := by
  simp only [weightRow]
  rw [if_neg hval]
  have hcw : calcWeightFun scheme cap (sigRow.filterMap id) =
      .error (.unknownScheme ("Unknown weight scheme: " ++ scheme)) := by
    simp [calcWeightFun, hs.1, hs.2.1, hs.2.2]
  rw [hcw]

/-- Under daily rebalancing an unrecognized scheme fails the weights loop as
soon as any of the walked dates has a non-NaN signal cross-section: an
all-NaN cross-section only yields the zero row for its own date, and every
date rebalances, so the scheme dispatch is reached again at the next date. -/
theorem weightsLoop_unknown_daily (sig : Frame) (passets : List String)
    (scheme : String) (cap : ℚ)
    (hs : scheme ≠ "rank" ∧ scheme ≠ "zscore" ∧ scheme ≠ "long_short") :
    ∀ (ds : List Date) (prev : Option Date) (cur : List ℚ),
      (∃ d ∈ ds, (findRow sig d).filterMap id ≠ []) →
      weightsLoop sig passets scheme "D" cap prev cur ds =
        .error (.unknownScheme ("Unknown weight scheme: " ++ scheme)) := by
  intro ds
  induction ds with
  | nil =>
      intro prev cur hex
      obtain ⟨d, hd, _⟩ := hex
      simp at hd
  | cons d rest ih =>
      intro prev cur hex
      have hsr : shouldRebalance "D" prev d = .ok true := by
        cases prev with
        | none => rfl
        | some p => simp [shouldRebalance]
      unfold weightsLoop
      rw [hsr]
      dsimp only []
      by_cases hv : (findRow sig d).filterMap id = []
      · have hwr : weightRow passets sig.assets (findRow sig d) scheme cap =
            .ok (passets.map fun _ => 0) := by
          simp only [weightRow]
          rw [if_pos hv]
        rw [hwr]
        dsimp only []
        have hex' : ∃ d' ∈ rest, (findRow sig d').filterMap id ≠ [] := by
          obtain ⟨d', hd', hne⟩ := hex
          rcases List.mem_cons.mp hd' with h | h
          · exact absurd hv (h ▸ hne)
          · exact ⟨d', h, hne⟩
        rw [ih (some d) (passets.map fun _ => 0) hex']
      · rw [weightRow_unknown passets sig.assets (findRow sig d) scheme cap hs hv]

/-- C6 (amended): for a scheme outside {rank, zscore, long_short}, `run`
raises the unknown-scheme error and returns no bundle as soon as a rebalanced
date's signal cross-section has at least one non-NaN entry: (1) under any
rebalance frequency, when the first simulated date's cross-section has one
(the first date always rebalances); and (2) under daily rebalancing, when any
simulated date's cross-section has one — an all-NaN cross-section only yields
the zero weight row for its own date and does not protect later dates.  With
no simulated dates at all the scheme name is never inspected and `run`
completes normally (see the counterexample). -/
theorem claim_C6 (bt : Backtest) (scheme : String)
    (hs : scheme ≠ "rank" ∧ scheme ≠ "zscore" ∧ scheme ≠ "long_short") :
    (∀ d rest, (pctDropna bt.prices.rows).map Prod.fst = d :: rest →
      (findRow bt.signals d).filterMap id ≠ [] →
      run bt scheme = .error (.unknownScheme ("Unknown weight scheme: " ++ scheme))) ∧
    (bt.cfg.rebalanceFreq = "D" →
      (∃ d ∈ (pctDropna bt.prices.rows).map Prod.fst,
        (findRow bt.signals d).filterMap id ≠ []) →
      run bt scheme = .error (.unknownScheme ("Unknown weight scheme: " ++ scheme))) := by
  constructor
  · intro d rest hds hval
    unfold run
    rw [hds]
    unfold weightsLoop
    rw [show shouldRebalance bt.cfg.rebalanceFreq none d = .ok true from rfl]
    dsimp only []
    rw [weightRow_unknown bt.prices.assets bt.signals.assets (findRow bt.signals d)
      scheme bt.cfg.maxLeverage hs hval]
  · intro hfreq hex
    unfold run
    rw [hfreq]
    rw [weightsLoop_unknown_daily bt.signals bt.prices.assets scheme
      bt.cfg.maxLeverage hs _ none (zeroRow bt) hex]

section
attribute [local semireducible] Rat.mul Rat.inv Rat.add Rat.sub

/-- C6 counterexample: on a non-empty aligned panel with no simulated dates
(a single common date), an unknown scheme does not raise at all — `run`
completes and returns a bundle. -/
theorem claim_C6_counterexample :
    mkBacktest exPricesOneDate exSignalsOneDate exCfg = .ok exBTOneDate ∧
    exBTOneDate.prices.index ≠ [] ∧
    run exBTOneDate "bogus" = .ok
      { portfolioValue := [(exDate0, 1000000)]
        returns := []
        positions := []
        initialCapital := 1000000
        finalValue := 1000000
        totalReturn := 0 } ∧
    ("bogus" ≠ "rank" ∧ "bogus" ≠ "zscore" ∧ "bogus" ≠ "long_short") := by
  decide

/-- C6 witness: the amended statement at two concrete engines — the flat
panel whose first (and only) simulated date has a non-NaN signal row, and the
engine whose first simulated cross-section is all-NaN but whose second is
not, where the error is still raised under daily rebalancing. -/
theorem claim_C6_witness :
    run exBT "bogus" = .error (.unknownScheme ("Unknown weight scheme: " ++ "bogus")) ∧
    run exBTNaN1 "bogus" =
      .error (.unknownScheme ("Unknown weight scheme: " ++ "bogus")) :=
  ⟨(claim_C6 exBT "bogus" ⟨by decide, by decide, by decide⟩).1 exDate1 []
      (by decide) (by decide),
    (claim_C6 exBTNaN1 "bogus" ⟨by decide, by decide, by decide⟩).2 (by decide)
      ⟨exDate2, by decide, by decide⟩⟩

end

/-! ### C4: leverage cap on the weight rows -/

/-- `rabs 0 = 0`. -/
theorem rabs_zero : rabs 0 = 0 := by norm_num [rabs]

/-- The absolute sum of an all-zero row is 0. -/
theorem sum_map_rabs_zero {α : Type} (l : List α) :
    ((l.map fun _ => (0 : ℚ)).map rabs).sum = 0 := by
  induction l with
  | nil => rfl
  | cons a l ih => simp only [List.map_cons, List.sum_cons, ih, rabs_zero, add_zero]

/-- Reindexing a weight function over duplicate-free columns produces a total
absolute weight bounded by the total over the valid entries: each column
either looks up its own cell (a distinct valid entry, or a NaN contributing
weight 0) and distinct columns hit distinct cells. -/
theorem sum_rabs_lookup_le (f : ℚ → ℚ) :
    ∀ (cols : List String) (row : List (Option ℚ)), cols.Nodup →
      ((cols.map fun a =>
          match lookupCol cols row a with
          | some x => f x
          | none => 0).map rabs).sum ≤
        ((row.filterMap id).map fun y => rabs (f y)).sum := by
  intro cols
  induction cols with
  | nil =>
      intro row _
      simp only [List.map_nil, List.sum_nil]
      exact sum_map_nonneg _ _ fun y _ => rabs_nonneg _
  | cons c cs ih =>
      intro row hnd
      have hcc : c ∉ cs := (List.nodup_cons.mp hnd).1
      have hnd' : cs.Nodup := (List.nodup_cons.mp hnd).2
      cases row with
      | nil =>
          have hz : ∀ a : String, lookupCol (c :: cs) ([] : List (Option ℚ)) a = none :=
            fun _ => rfl
          have hmap : ((c :: cs).map fun a =>
              match lookupCol (c :: cs) ([] : List (Option ℚ)) a with
              | some x => f x
              | none => 0) = (c :: cs).map fun _ => (0 : ℚ) := by
            apply List.map_congr_left
            intro a _
            rw [hz a]
          rw [hmap, sum_map_rabs_zero]
          simp
      | cons v vs =>
          have hhead : lookupCol (c :: cs) (v :: vs) c = v := by simp [lookupCol]
          have hmap : (cs.map fun a =>
              match lookupCol (c :: cs) (v :: vs) a with
              | some x => f x
              | none => 0) = cs.map fun a =>
              match lookupCol cs vs a with
              | some x => f x
              | none => 0 := by
            apply List.map_congr_left
            intro a ha
            have hne : a ≠ c := fun hc => hcc (hc ▸ ha)
            simp [lookupCol, hne]
          rw [List.map_cons, List.map_cons, List.sum_cons, hhead, hmap]
          cases v with
          | some x =>
              have hfm : ((some x :: vs).filterMap id) = x :: vs.filterMap id := by simp
              rw [hfm, List.map_cons, List.sum_cons]
              have hih := ih vs hnd'
              exact add_le_add_left hih _
          | none =>
              have hfm : ((none :: vs).filterMap id : List ℚ) = vs.filterMap id := by simp
              rw [hfm]
              have h0 : rabs (match (none : Option ℚ) with
                  | some x => f x
                  | none => 0) = 0 := rabs_zero
              rw [h0, zero_add]
              exact ih vs hnd'

/-- The z-score scheme bounds the total absolute weight by the cap: it scales
the clipped signals to total exactly the cap whenever their total is positive,
and keeps the (then all-zero) clipped signals otherwise. -/
theorem zscoreWeights_sum_le (cap : ℚ) (valid : List ℚ) (hcap : 0 ≤ cap) :
    (valid.map fun y => rabs (zscoreWeights cap valid y)).sum ≤ cap := by
  simp only [zscoreWeights]
  have hTnn : 0 ≤ (valid.map fun y => rabs (zscoreClip y)).sum :=
    sum_map_nonneg _ _ fun y _ => rabs_nonneg _
  by_cases h : 0 < (valid.map fun y => rabs (zscoreClip y)).sum
  · rw [if_pos h]
    have hmap : (valid.map fun y =>
        rabs (zscoreClip y * (cap / (valid.map fun z => rabs (zscoreClip z)).sum))).sum
        = (valid.map fun y =>
            rabs (zscoreClip y) * (cap / (valid.map fun z => rabs (zscoreClip z)).sum)).sum := by
      congr 1
      apply List.map_congr_left
      intro y _
      rw [rabs_mul, rabs_of_nonneg (div_nonneg hcap h.le)]
    rw [hmap, List.sum_map_mul_right, mul_comm]
    rw [div_mul_cancel₀ _ (ne_of_gt h)]
  · rw [if_neg h]
    linarith

/-- Every successful weight row of the rank or z-score scheme has total
absolute weight at most the cap (over duplicate-free shared columns). -/
theorem weightRow_sum_le (passets : List String) (sigRow : List (Option ℚ))
    (scheme : String) (cap : ℚ) (w : List ℚ)
    (hcap : 0 ≤ cap) (hnd : passets.Nodup)
    (hs : scheme = "rank" ∨ scheme = "zscore")
    (hok : weightRow passets passets sigRow scheme cap = .ok w) :
    (w.map rabs).sum ≤ cap := by
  simp only [weightRow] at hok
  by_cases hv : sigRow.filterMap id = []
  · rw [if_pos hv] at hok
    injection hok with hok
    rw [← hok, sum_map_rabs_zero]
    exact hcap
  · rw [if_neg hv] at hok
    rcases hs with h | h <;> subst h
    · rw [show calcWeightFun "rank" cap (sigRow.filterMap id) =
          .ok (rankWeights cap (sigRow.filterMap id)) from rfl] at hok
      dsimp only [] at hok
      injection hok with hok
      rw [← hok]
      exact le_trans
        (sum_rabs_lookup_le (rankWeights cap (sigRow.filterMap id)) passets sigRow hnd)
        (scaleIfAbove_sum_le cap (sigRow.filterMap id)
          (rankNormalized (sigRow.filterMap id)) hcap)
    · rw [show calcWeightFun "zscore" cap (sigRow.filterMap id) =
          .ok (zscoreWeights cap (sigRow.filterMap id)) from rfl] at hok
      dsimp only [] at hok
      injection hok with hok
      rw [← hok]
      exact le_trans
        (sum_rabs_lookup_le (zscoreWeights cap (sigRow.filterMap id)) passets sigRow hnd)
        (zscoreWeights_sum_le cap (sigRow.filterMap id) hcap)

/-- The weights-loop invariant: starting from a row within the cap, every row
the loop emits under the rank or z-score scheme stays within the cap. -/
theorem weightsLoop_rows_le (sig : Frame) (passets : List String)
    (scheme freq : String) (cap : ℚ)
    (hcap : 0 ≤ cap) (hnd : passets.Nodup) (hsa : sig.assets = passets)
    (hs : scheme = "rank" ∨ scheme = "zscore") :
    ∀ (ds : List Date) (prev : Option Date) (cur : List ℚ),
      (cur.map rabs).sum ≤ cap →
      ∀ out, weightsLoop sig passets scheme freq cap prev cur ds = .ok out →
        ∀ e ∈ out, (e.2.map rabs).sum ≤ cap := by
  intro ds
  induction ds with
  | nil =>
      intro prev cur hcur out hout e he
      simp only [weightsLoop] at hout
      injection hout with hout
      rw [← hout] at he
      simp at he
  | cons d ds' ih =>
      intro prev cur hcur out hout e he
      simp only [weightsLoop] at hout
      cases hsr : shouldRebalance freq prev d with
      | error e2 => rw [hsr] at hout; exact absurd hout (by simp)
      | ok rb =>
          rw [hsr] at hout
          cases rb with
          | true =>
              dsimp only [] at hout
              cases hwr : weightRow passets sig.assets (findRow sig d) scheme cap with
              | error e2 => rw [hwr] at hout; exact absurd hout (by simp)
              | ok w =>
                  rw [hwr] at hout
                  dsimp only [] at hout
                  cases hrec : weightsLoop sig passets scheme freq cap (some d) w ds' with
                  | error e2 => rw [hrec] at hout; exact absurd hout (by simp)
                  | ok out' =>
                      rw [hrec] at hout
                      dsimp only [] at hout
                      injection hout with hout
                      rw [← hout] at he
                      rw [hsa] at hwr
                      have hwle : (w.map rabs).sum ≤ cap :=
                        weightRow_sum_le passets (findRow sig d) scheme cap w hcap hnd hs hwr
                      rcases List.mem_cons.mp he with h | h
                      · rw [h]
                        exact hwle
                      · exact ih (some d) w hwle out' hrec e h
          | false =>
              dsimp only [] at hout
              cases hrec : weightsLoop sig passets scheme freq cap prev cur ds' with
              | error e2 => rw [hrec] at hout; exact absurd hout (by simp)
              | ok out' =>
                  rw [hrec] at hout
                  dsimp only [] at hout
                  injection hout with hout
                  rw [← hout] at he
                  rcases List.mem_cons.mp he with h | h
                  · rw [h]
                    exact hcur
                  · exact ih prev cur hcur out' hrec e h

/-- C4 (amended): under the rank and z-score schemes (with a non-negative cap
and matching duplicate-free columns), every row of the positions matrix of a
successful run has total absolute weight at most `max_leverage`.  The claim's
inclusion of the long_short scheme is false: long_short applies no
leverage-cap scaling, and an unbalanced cross-section (two longs, one short)
produces a row of absolute sum 2 above the cap 1 (see the counterexample). -/
theorem claim_C4 (bt : Backtest) (scheme : String) (b : Bundle)
    (hs : scheme = "rank" ∨ scheme = "zscore")
    (hcap : 0 ≤ bt.cfg.maxLeverage)
    (hsa : bt.signals.assets = bt.prices.assets)
    (hnd : bt.prices.assets.Nodup)
    (hrun : run bt scheme = .ok b) :
    ∀ e ∈ b.positions, (e.2.map rabs).sum ≤ bt.cfg.maxLeverage := by
  obtain ⟨wrows, hw, hpos, _, _, _, _⟩ := run_ok_elim bt scheme b hrun
  intro e he
  rw [hpos] at he
  have hzero : (((zeroRow bt : List ℚ)).map rabs).sum ≤ bt.cfg.maxLeverage := by
    rw [show (zeroRow bt : List ℚ) = bt.prices.assets.map fun _ => (0 : ℚ) from rfl]
    rw [sum_map_rabs_zero]
    exact hcap
  exact weightsLoop_rows_le bt.signals bt.prices.assets scheme bt.cfg.rebalanceFreq
    bt.cfg.maxLeverage hcap hnd hsa hs _ none (zeroRow bt) hzero wrows hw e he

section
attribute [local semireducible] Rat.mul Rat.inv Rat.add Rat.sub

/-- C4 counterexample: the long_short scheme on the unbalanced concrete
cross-section (two positive signals, one negative) emits the row
`[1/2, 1/2, -1]` of total absolute weight 2, strictly above the cap 1. -/
theorem claim_C4_counterexample :
    run exBT "long_short" = .ok exBundleLS ∧
    (exDate1, [1 / 2, 1 / 2, -1]) ∈ exBundleLS.positions ∧
    ¬(((([(1 : ℚ) / 2, 1 / 2, -1]).map rabs).sum ≤ exBT.cfg.maxLeverage)) := by
  decide

/-- C4 witness: the amended statement at the single-asset rank-scheme run,
whose rows `[-1]` have absolute sum 1 = cap. -/
theorem claim_C4_witness :
    ((0 : ℚ) ≤ exBT1.cfg.maxLeverage ∧
      exBT1.signals.assets = exBT1.prices.assets ∧
      exBT1.prices.assets.Nodup ∧
      run exBT1 "rank" = .ok exBundleRank1) ∧
    ∀ e ∈ exBundleRank1.positions, (e.2.map rabs).sum ≤ exBT1.cfg.maxLeverage :=
  ⟨⟨by decide, by decide, by decide, by decide⟩,
    claim_C4 exBT1 "rank" exBundleRank1 (Or.inl rfl) (by decide) (by decide)
      (by decide) (by decide)⟩

end

/-! ### C8: transaction-cost monotonicity of the final value -/

/-- Turnover is non-negative. -/
theorem halfL1_nonneg (a b : List ℚ) : 0 ≤ halfL1 a b := by
  have hsum : ∀ (a b : List ℚ), 0 ≤ (List.zipWith (fun x y => rabs (x - y)) a b).sum := by
    intro a
    induction a with
    | nil => intro b; simp
    | cons x xs ih =>
        intro b
        cases b with
        | nil => simp
        | cons y ys =>
            simp only [List.zipWith_cons_cons, List.sum_cons]
            have := ih ys
            have := rabs_nonneg (x - y)
            linarith
  unfold halfL1
  have := hsum a b
  linarith

/-- The strategy-return recursion on an empty weights matrix. -/
theorem stratGo_nil_ws (tc : ℚ) (prev : List ℚ) (rs : List (List ℚ)) :
    stratGo tc prev [] rs = [] := by
  cases rs <;> rfl

/-- The strategy-return recursion on an empty returns matrix. -/
theorem stratGo_ws_nil (tc : ℚ) (prev : List ℚ) (ws : List (List ℚ)) :
    stratGo tc prev ws [] = [] := by
  cases ws <;> rfl

/-- The compounding comparison: with a non-negative transaction cost whose
compounding factors all stay non-negative, the compounded product is
non-negative and at most the cost-free compounded product over the same
weights and returns. -/
theorem stratGo_prod (tc : ℚ) (htc : 0 ≤ tc) :
    ∀ (ws rs : List (List ℚ)) (prev : List ℚ),
      (∀ x ∈ stratGo tc prev ws rs, 0 ≤ 1 + x) →
      0 ≤ ((stratGo tc prev ws rs).map (1 + ·)).prod ∧
        ((stratGo tc prev ws rs).map (1 + ·)).prod ≤
          ((stratGo 0 prev ws rs).map (1 + ·)).prod := by
  intro ws
  induction ws with
  | nil =>
      intro rs prev _
      rw [stratGo_nil_ws, stratGo_nil_ws]
      norm_num
  | cons w ws' ih =>
      intro rs prev hnn
      cases rs with
      | nil =>
          rw [stratGo_ws_nil, stratGo_ws_nil]
          norm_num
      | cons r rs' =>
          have hGo : stratGo tc prev (w :: ws') (r :: rs') =
              (dotRow prev r - halfL1 w prev * tc) :: stratGo tc w ws' rs' := rfl
          have hGo0 : stratGo 0 prev (w :: ws') (r :: rs') =
              (dotRow prev r - halfL1 w prev * 0) :: stratGo 0 w ws' rs' := rfl
          have hf1 : 0 ≤ 1 + (dotRow prev r - halfL1 w prev * tc) := by
            apply hnn
            rw [hGo]
            exact List.mem_cons_self _ _
          have htail : ∀ x ∈ stratGo tc w ws' rs', 0 ≤ 1 + x := by
            intro x hx
            apply hnn
            rw [hGo]
            exact List.mem_cons_of_mem _ hx
          obtain ⟨hp1, hple⟩ := ih rs' w htail
          have hstep : 1 + (dotRow prev r - halfL1 w prev * tc) ≤
              1 + (dotRow prev r - halfL1 w prev * 0) := by
            have := mul_nonneg (halfL1_nonneg w prev) htc
            linarith
          have hf2 : 0 ≤ 1 + (dotRow prev r - halfL1 w prev * 0) :=
            le_trans hf1 hstep
          rw [hGo, hGo0]
          simp only [List.map_cons, List.prod_cons]
          constructor
          · exact mul_nonneg hf1 hp1
          · exact mul_le_mul hstep hple hp1 hf2

/-- The last entry of a zip of equal-length lists projects to the last entry
of the second list. -/
theorem zip_getLast_snd {α β : Type} :
    ∀ (l1 : List α) (l2 : List β), l1.length = l2.length →
      ((l1.zip l2).getLast?).map Prod.snd = l2.getLast? := by
  intro l1
  induction l1 with
  | nil =>
      intro l2 h
      cases l2 with
      | nil => rfl
      | cons y ys => simp at h
  | cons x xs ih =>
      intro l2 h
      cases l2 with
      | nil => simp at h
      | cons y ys =>
          cases xs with
          | nil =>
              cases ys with
              | nil => rfl
              | cons y2 ys2 => simp at h
          | cons x2 xs2 =>
              cases ys with
              | nil => simp at h
              | cons y2 ys2 =>
                  have hih := ih (y2 :: ys2) (by simpa using h)
                  simp only [List.zip_cons_cons, List.getLast?_cons_cons]
                  simpa [List.zip_cons_cons] using hih

/-- The last entry of the anchored portfolio-value series is the initial
capital compounded through all strategy-return factors. -/
theorem anchoredOf_getLast_snd (bt : Backtest) (wrows : List (Date × List ℚ))
    (hlen : wrows.length = (pctDropna bt.prices.rows).length) :
    ((anchoredOf bt wrows).getLast?).map Prod.snd =
      some (bt.cfg.initialCapital * ((stratOf bt wrows).map (1 + ·)).prod) := by
  have hslen : (stratOf bt wrows).length = (pctDropna bt.prices.rows).length :=
    stratOf_length bt wrows hlen
  unfold anchoredOf
  cases hS : (pctDropna bt.prices.rows).map Prod.fst with
  | nil =>
      have hpd : pctDropna bt.prices.rows = [] := by
        cases hpd : pctDropna bt.prices.rows with
        | nil => rfl
        | cons a l => rw [hpd] at hS; simp at hS
      have hw0 : wrows = [] := by
        have : wrows.length = 0 := by rw [hlen, hpd]; rfl
        exact List.length_eq_zero.mp this
      have hstrat : stratOf bt wrows = [] := by
        unfold stratOf
        rw [hpd, hw0]
        rfl
      rw [hstrat]
      simp
  | cons dS dsS =>
      have hfac_ne : ((stratOf bt wrows).map (1 + ·)) ≠ [] := by
        intro hc
        have h1 : (stratOf bt wrows).length = 0 := by
          have := congrArg List.length hc
          simpa using this
        have h2 : ((pctDropna bt.prices.rows).map Prod.fst).length = 0 := by
          rw [List.length_map, ← hslen, h1]
        rw [hS] at h2
        simp at h2
      have hcum_len : (cumprodFrom bt.cfg.initialCapital
          ((stratOf bt wrows).map (1 + ·))).length =
          ((pctDropna bt.prices.rows).map Prod.fst).length := by
        rw [cumprodFrom_length, List.length_map, hslen, List.length_map]
      have hzip := zip_getLast_snd ((pctDropna bt.prices.rows).map Prod.fst)
        (cumprodFrom bt.cfg.initialCapital ((stratOf bt wrows).map (1 + ·)))
        hcum_len.symm
      have hzip_ne : ((pctDropna bt.prices.rows).map Prod.fst).zip
          (cumprodFrom bt.cfg.initialCapital ((stratOf bt wrows).map (1 + ·))) ≠ [] := by
        intro hc
        have := congrArg List.length hc
        rw [List.length_zip, hcum_len, Nat.min_self, hS] at this
        simp at this
      rw [← hS, getLast?_cons_ne _ hzip_ne, hzip,
        cumprodFrom_getLast _ _ hfac_ne]

/-- The final value of a successful run is the initial capital compounded
through the strategy-return factors. -/
theorem run_finalValue_prod (p s : Frame) (cfg : Config) (bt : Backtest)
    (wrows : List (Date × List ℚ))
    (hsorted : DatesSorted (p.rows.map Prod.fst))
    (hmk : mkBacktest p s cfg = .ok bt)
    (hdates : wrows.map Prod.fst = (pctDropna bt.prices.rows).map Prod.fst) :
    lastVal (pvOf bt wrows) 0 =
      bt.cfg.initialCapital * ((stratOf bt wrows).map (1 + ·)).prod := by
  obtain ⟨hnd, hne, hsub, hpv, hanch⟩ := pvOf_eq_merge p s cfg bt wrows hsorted hmk hdates
  have hlen : wrows.length = (pctDropna bt.prices.rows).length := by
    have := congrArg List.length hdates
    simpa using this
  rw [hpv, ffillMerge_lastVal _ _ _ hne hsub, anchoredOf_getLast_snd bt wrows hlen]
  rfl

/-- C8 (amended): for identical price/signal panels (with the data model's
sorted index) and configurations differing only in the transaction-cost rate
(0.01 versus 0.0), with a non-negative initial capital, the with-cost final
value is at most the cost-free final value, provided every with-cost daily
compounding factor `1 + strategy_return` is non-negative.  Without that
proviso the claim is false: a crash day can push a factor below -1, negative
portfolio values compound with flipped ordering, and the with-cost final
value can strictly exceed the cost-free one (see the counterexample). -/
theorem claim_C8 (p s : Frame) (cfg cfg' : Config) (bt bt' : Backtest)
    (scheme : String) (b b' : Bundle)
    (hsorted : DatesSorted (p.rows.map Prod.fst))
    (htc : cfg.transactionCost = 1 / 100)
    (htc' : cfg'.transactionCost = 0)
    (hK : cfg'.initialCapital = cfg.initialCapital)
    (hlev : cfg'.maxLeverage = cfg.maxLeverage)
    (hfreq : cfg'.rebalanceFreq = cfg.rebalanceFreq)
    (hKnn : 0 ≤ cfg.initialCapital)
    (hmk : mkBacktest p s cfg = .ok bt)
    (hmk' : mkBacktest p s cfg' = .ok bt')
    (hrun : run bt scheme = .ok b)
    (hrun' : run bt' scheme = .ok b')
    (hnn : ∀ x ∈ stratOf bt b.positions, 0 ≤ 1 + x) :
    b.finalValue ≤ b'.finalValue := by
  obtain ⟨hbp, hbs, hbc, _⟩ := mkBacktest_ok_elim p s cfg bt hmk
  obtain ⟨hbp', hbs', hbc', _⟩ := mkBacktest_ok_elim p s cfg' bt' hmk'
  have hpp : bt'.prices = bt.prices := by rw [hbp, hbp']
  have hss : bt'.signals = bt.signals := by rw [hbs, hbs']
  obtain ⟨wrows, hw, hpos, _, _, hfin, _⟩ := run_ok_elim bt scheme b hrun
  obtain ⟨wrows', hw', hpos', _, _, hfin', _⟩ := run_ok_elim bt' scheme b' hrun'
  have hloops : weightsLoop bt'.signals bt'.prices.assets scheme
      bt'.cfg.rebalanceFreq bt'.cfg.maxLeverage none (zeroRow bt')
      ((pctDropna bt'.prices.rows).map Prod.fst) =
      weightsLoop bt.signals bt.prices.assets scheme
        bt.cfg.rebalanceFreq bt.cfg.maxLeverage none (zeroRow bt)
        ((pctDropna bt.prices.rows).map Prod.fst) := by
    simp only [zeroRow]
    rw [hpp, hss, hbc, hbc', hfreq, hlev]
  have hwr : wrows = wrows' := by
    have h2 : Except.ok (ε := BTError) wrows = .ok wrows' := by
      rw [← hw, ← hw', hloops]
    injection h2
  subst hwr
  have hdates : wrows.map Prod.fst = (pctDropna bt.prices.rows).map Prod.fst :=
    weightsLoop_ok_dates bt.signals bt.prices.assets scheme bt.cfg.rebalanceFreq
      bt.cfg.maxLeverage _ none (zeroRow bt) wrows hw
  have hdates' : wrows.map Prod.fst = (pctDropna bt'.prices.rows).map Prod.fst := by
    rw [hpp]
    exact hdates
  have hfv : b.finalValue =
      bt.cfg.initialCapital * ((stratOf bt wrows).map (1 + ·)).prod := by
    rw [hfin, run_finalValue_prod p s cfg bt wrows hsorted hmk hdates]
  have hfv' : b'.finalValue =
      bt'.cfg.initialCapital * ((stratOf bt' wrows).map (1 + ·)).prod := by
    rw [hfin', run_finalValue_prod p s cfg' bt' wrows hsorted hmk' hdates']
  have hstrat : stratOf bt wrows =
      stratGo cfg.transactionCost (zeroRow bt) (wrows.map Prod.snd)
        ((pctDropna bt.prices.rows).map Prod.snd) := by
    unfold stratOf
    rw [hbc]
  have hstrat' : stratOf bt' wrows =
      stratGo 0 (zeroRow bt) (wrows.map Prod.snd)
        ((pctDropna bt.prices.rows).map Prod.snd) := by
    unfold stratOf
    simp only [zeroRow]
    rw [hbc', htc', hpp]
  have hnn2 : ∀ x ∈ stratGo cfg.transactionCost (zeroRow bt) (wrows.map Prod.snd)
      ((pctDropna bt.prices.rows).map Prod.snd), 0 ≤ 1 + x := by
    rw [hpos] at hnn
    rw [hstrat] at hnn
    exact hnn
  obtain ⟨hprod_nn, hprod_le⟩ := stratGo_prod cfg.transactionCost
    (by rw [htc]; norm_num) (wrows.map Prod.snd)
    ((pctDropna bt.prices.rows).map Prod.snd) (zeroRow bt) hnn2
  rw [hfv, hfv', hbc, hbc', hK, hstrat, hstrat']
  exact mul_le_mul_of_nonneg_left hprod_le hKnn

section
attribute [local semireducible] Rat.mul Rat.inv Rat.add Rat.sub

/-- C8 counterexample: on the crash scenario (the held asset loses 99.6
percent on two consecutive days, so a with-cost compounding factor drops
below -1 and the portfolio value turns negative), the run with
transaction_cost = 0.01 ends at 1791/50 = 35.82 while the run with
transaction_cost = 0 ends at 16 — the with-cost final value is strictly
larger, refuting the claimed monotonicity. -/
theorem claim_C8_counterexample :
    mkBacktest exPricesCost exSignalsCost exCfgTC = .ok exBTCost ∧
    mkBacktest exPricesCost exSignalsCost exCfgTC0 = .ok exBTCost0 ∧
    exCfgTC.transactionCost = 1 / 100 ∧ exCfgTC0.transactionCost = 0 ∧
    ((run exBTCost "long_short").toOption.map Bundle.finalValue) = some (1791 / 50) ∧
    ((run exBTCost0 "long_short").toOption.map Bundle.finalValue) = some 16 ∧
    ¬((1791 : ℚ) / 50 ≤ 16) := by
  decide

/-- C8 witness: the amended statement at the flat three-asset panel, where
the 1 percent cost run ends at 990000 and the cost-free run at 1000000. -/
theorem claim_C8_witness :
    (DatesSorted (exPrices.rows.map Prod.fst) ∧
      exCfgTC.transactionCost = 1 / 100 ∧ exCfgTC0.transactionCost = 0 ∧
      mkBacktest exPrices exSignals exCfgTC = .ok exBTTC ∧
      mkBacktest exPrices exSignals exCfgTC0 = .ok exBTTC0 ∧
      run exBTTC "long_short" = .ok exBundleTC ∧
      run exBTTC0 "long_short" = .ok exBundleTC0) ∧
    exBundleTC.finalValue ≤ exBundleTC0.finalValue :=
  ⟨⟨by decide, by decide, by decide, by decide, by decide, by decide, by decide⟩,
    claim_C8 exPrices exSignals exCfgTC exCfgTC0 exBTTC exBTTC0 "long_short"
      exBundleTC exBundleTC0 (by decide) (by decide) (by decide) (by decide)
      (by decide) (by decide) (by decide) (by decide) (by decide) (by decide)
      (by decide)
      (by
        intro x hx
        rw [show stratOf exBTTC exBundleTC.positions = [-1 / 100] from by decide] at hx
        rw [List.mem_singleton.mp hx]
        norm_num)⟩

end

end QRS
